import Mathlib

/-!
# Verification of the PEMM spreadsheet setup scripts

Shallow embedding of the schema-to-spreadsheet materialization core of the
pemm-scripts repository (`src/sheet.ts`, `src/spreadsheet.ts`, i.e. the
`slugify`, `indexToAlpha`, `setupSheet` and `setupSpreadsheet` functions),
together with proofs and refutations of the specification's claims about it.

Strings are modelled by Lean `String` (a list of unicode scalar values, as in
JS modulo surrogate-pair details that no claim exercises).  The external
spreadsheet collaborator (Google Apps Script) is modelled as an explicit
state record; every call the code makes is mirrored by a state update.
-/

/-! ## Character classes used by the string routines

`slugify` (src/sheet.ts) is
`name.toLowerCase().replace(/\s/g, '_').replace(/\W/g, '')`.
The regex character class `\s` is the ECMA-262 WhiteSpace ∪ LineTerminator
set; `\W` is the complement of the word characters `[A-Za-z0-9_]`.
Both are single-character classes, so a global replace acts independently on
each character of the string. -/

/-- ECMA-262 `\s` on code points: tab, LF, VT, FF, CR, space, NBSP, Ogham
space mark, the U+2000–U+200A spaces, LS, PS, NNBSP, MMSP, ideographic
space, and BOM. -/
def jsWhitespaceNat (n : Nat) : Bool :=
  decide (n = 0x09 ∨ n = 0x0a ∨ n = 0x0b ∨ n = 0x0c ∨ n = 0x0d ∨ n = 0x20 ∨
    n = 0xa0 ∨ n = 0x1680 ∨ (0x2000 ≤ n ∧ n ≤ 0x200a) ∨ n = 0x2028 ∨
    n = 0x2029 ∨ n = 0x202f ∨ n = 0x205f ∨ n = 0x3000 ∨ n = 0xfeff)

/-- ECMA-262 word character (`\w`, the complement of `\W`): `[A-Za-z0-9_]`. -/
def jsWordNat (n : Nat) : Bool :=
  decide ((0x41 ≤ n ∧ n ≤ 0x5a) ∨ (0x61 ≤ n ∧ n ≤ 0x7a) ∨
    (0x30 ≤ n ∧ n ≤ 0x39) ∨ n = 0x5f)

def jsIsWhitespace (c : Char) : Bool := jsWhitespaceNat c.toNat

def jsIsWordChar (c : Char) : Bool := jsWordNat c.toNat

/-- The action of `.replace(/\s/g, '_')` on one character. -/
def wsToUnderscore (c : Char) : Char := if jsIsWhitespace c then '_' else c

/-- src/sheet.ts `slugify`: lowercase, then replace every `\s` character by an
underscore, then delete every `\W` character.  `String.prototype.toLowerCase`
is modelled per character by `Char.toLower`, which is exact on the Basic Latin
range (the only range with a nontrivial lowercase mapping that the
repository's schema names use). -/
def slugify (name : String) : String :=
  String.mk (((name.data.map Char.toLower).map wsToUnderscore).filter jsIsWordChar)

/-- Modelled from the spec: the sentence "replaces runs of whitespace with a
single underscore" — each maximal run of consecutive whitespace characters
becomes one underscore.  The flag records whether the previous character was
whitespace (i.e. whether a run is already open). -/
def collapseWSAux : Bool → List Char → List Char
  | _, [] => []
  | prevWS, c :: rest =>
    if jsIsWhitespace c then
      (if prevWS then [] else ['_']) ++ collapseWSAux true rest
    else c :: collapseWSAux false rest

/-- Modelled from the spec: `slugify` as the spec describes it, with
whitespace runs collapsed to a single underscore (compare `slugify`, which
replaces each whitespace character separately). -/
def slugifySpecRuns (name : String) : String :=
  String.mk ((collapseWSAux false (name.data.map Char.toLower)).filter jsIsWordChar)

/-- No two consecutive whitespace characters. -/
def noWSRun : List Char → Bool
  | [] => true
  | [_] => true
  | c1 :: c2 :: rest => (!(jsIsWhitespace c1 && jsIsWhitespace c2)) && noWSRun (c2 :: rest)

/-- Whether the list starts with a whitespace character. -/
def headIsWS : List Char → Bool
  | [] => false
  | c :: _ => jsIsWhitespace c

/-- Characters that `slugify` can output: lowercase letters, digits and the
underscore (`[a-z0-9_]` as code points). -/
def slugLowerNat (n : Nat) : Bool :=
  decide ((0x61 ≤ n ∧ n ≤ 0x7a) ∨ (0x30 ≤ n ∧ n ≤ 0x39) ∨ n = 0x5f)

/-! ## The column-index encoder

src/sheet.ts `indexToAlpha` converts the zero-based column index to a string
via `index.toString(26)` (plain base-26, digits `0-9a-p`), splits it into
characters, recovers each digit's numeric value with `parseInt(digit, 26)`,
subtracts one from the most significant digit when there is more than one,
and maps each digit `d` to the character with code `65 + d`. -/

/-- Base-26 digits of `n`, least significant first, as produced by JS
`Number.prototype.toString(26)` followed by `parseInt(·, 26)` per character.
The first argument is fuel; `n` itself is always sufficient fuel, and the
structural recursion keeps the definition kernel-computable. -/
def base26AuxRev : Nat → Nat → List Nat
  | 0, _ => []
  | _ + 1, 0 => []
  | fuel + 1, n + 1 => ((n + 1) % 26) :: base26AuxRev fuel ((n + 1) / 26)

/-- Digit values of `index.toString(26)`, most significant first
(`"0"` for zero, no leading zeros otherwise). -/
def toBase26Digits (n : Nat) : List Nat :=
  if n = 0 then [0] else (base26AuxRev n n).reverse

/-- `String.fromCharCode(65 + digit)`. -/
def letterOf (d : Nat) : Char := Char.ofNat (65 + d)

/-- `digits[0] -= 1` applied to the head of the digit list. -/
def adjustHead : List Nat → List Nat
  | [] => []
  | d :: rest => (d - 1) :: rest

/-- src/sheet.ts `indexToAlpha` on a non-negative index. -/
def indexToAlpha (index : Nat) : String :=
  let digits := toBase26Digits index
  String.mk ((if digits.length > 1 then adjustHead digits else digits).map letterOf)

/-! ### JS evaluation at arbitrary (possibly negative) integer indices

For a negative index, `index.toString(26)` yields `"-"` followed by the
digits of the absolute value; `parseInt("-", 26)` is `NaN` (modelled by
`none`); `NaN - 1` is `NaN`; and `String.fromCharCode(65 + NaN)` converts
`NaN` to code unit 0 (`ToUint16`), i.e. the NUL character. -/

/-- `index.toString(26).split('').map(d => parseInt(d, 26))` at any integer. -/
def jsParsedDigits (index : Int) : List (Option Nat) :=
  if index < 0 then none :: (toBase26Digits (-index).toNat).map some
  else (toBase26Digits index.toNat).map some

/-- `digits[0] -= 1` when the head may be `NaN`. -/
def jsAdjustHead : List (Option Nat) → List (Option Nat)
  | [] => []
  | none :: rest => none :: rest
  | some d :: rest => some (d - 1) :: rest

/-- `String.fromCharCode(65 + d)` where `d` may be `NaN`. -/
def jsLetterOf : Option Nat → Char
  | none => Char.ofNat 0
  | some d => Char.ofNat (65 + d)

/-- src/sheet.ts `indexToAlpha` evaluated at any integer, following JS number
semantics for the negative case. -/
def indexToAlphaJS (index : Int) : String :=
  let digits := jsParsedDigits index
  String.mk ((if digits.length > 1 then jsAdjustHead digits else digits).map jsLetterOf)

/-! ### Reference definition: true bijective base-26 labels -/

/-- Digits (least significant first, values 0–25 standing for A–Z) of the
bijective base-26 representation of the column *number* `m ≥ 1`:
repeatedly take `(m-1) % 26` and continue with `(m-1) / 26`.  Fuel-driven
for kernel computability; `m` is always sufficient fuel. -/
def bijAuxRev : Nat → Nat → List Nat
  | 0, _ => []
  | _ + 1, 0 => []
  | fuel + 1, m + 1 => (m % 26) :: bijAuxRev fuel (m / 26)

/-- Modelled from the spec: `columnLabel(index)`, the spreadsheet-style
bijective base-26 letter label of the zero-based column ordinal `index`
(0→"A", 25→"Z", 26→"AA", 701→"ZZ", 702→"AAA").  This is the reference
definition the code's `indexToAlpha` is compared against. -/
def columnLabelSpec (index : Nat) : String :=
  String.mk ((bijAuxRev (index + 1) (index + 1)).reverse.map letterOf)


/-! ## The schema data model (src/sheet.ts, src/spreadsheet.ts)

`FieldSchema.protected` is a Lean keyword, so the field is named
`protectedField`; `notes` is optional and defaults to absent, `protected`
defaults to false, exactly as the TypeScript optional members do. -/

structure FieldSchema where
  name : String
  notes : Option String := none
  protectedField : Bool := false
  deriving DecidableEq, Repr

structure SheetSchema where
  name : String
  fields : List FieldSchema
  deriving DecidableEq, Repr

structure SpreadsheetSchema where
  title : String
  sheets : List SheetSchema
  deriving DecidableEq, Repr

/-! ## The spreadsheet collaborator state

The Google Apps Script spreadsheet is modelled as explicit state.  A sheet
holds its cell values and notes as a list of rows (row 1 first; absent
cells are blank) and its frozen-row count.  The spreadsheet holds its
sheets in insertion order, its named ranges as an association list in
creation order (`setNamedRange` is create-or-replace, keyed by name), the
protections created so far (`Range.protect()` always creates a fresh
protection object, so these accumulate), and the background colors applied
to ranges (keyed by the range, since re-painting a range replaces its
color).  Ranges are identified by the A1-style reference string the code
builds, e.g. `'Story Instance'!B2:B`. -/

structure ProtectionState where
  range : String
  editors : List String
  deriving DecidableEq, Repr

structure SheetState where
  name : String
  rows : List (List String)
  rowNotes : List (List String)
  frozenRows : Nat
  deriving DecidableEq, Repr

structure SpreadsheetState where
  sheets : List SheetState
  namedRanges : List (String × String)
  protections : List ProtectionState
  backgrounds : List (String × String)
  deriving DecidableEq, Repr

/-- The acting identity (`Session.getActiveUser()`) and the editor list a
freshly created protection reports (`Protection.getEditors()` on a new
protection: Apps Script returns the users holding edit access). -/
structure Env where
  me : String
  freshProtectionEditors : List String
  deriving DecidableEq, Repr

/-- `#ffe5be`, the shared highlight for protected columns (src/sheet.ts). -/
def protectedBackgroundColor : String := "#ffe5be"

/-! ### Collaborator primitives -/

/-- First sheet with the given name, if any (`Spreadsheet.getSheetByName`). -/
def findSheet : List SheetState → String → Option SheetState
  | [], _ => none
  | sh :: rest, nm => if sh.name = nm then some sh else findSheet rest nm

def getSheetByName (st : SpreadsheetState) (nm : String) : Option SheetState :=
  findSheet st.sheets nm

/-- `Spreadsheet.insertSheet(name)`: a fresh blank sheet.  The flow only
calls this when no sheet of that name exists (the collaborator rejects
duplicate names). -/
def insertSheet (st : SpreadsheetState) (nm : String) : SpreadsheetState :=
  { st with sheets := st.sheets ++ [{ name := nm, rows := [], rowNotes := [], frozenRows := 0 }] }

/-- Apply an update to every sheet carrying the given name (the flow
maintains at most one). -/
def updateSheetNamed (st : SpreadsheetState) (nm : String) (f : SheetState → SheetState) :
    SpreadsheetState :=
  { st with sheets := st.sheets.map fun sh => if sh.name = nm then f sh else sh }

/-- `sheet.insertRows(1)`: a blank row is inserted before row 1. -/
def insertRowTop (sh : SheetState) : SheetState :=
  { sh with rows := [] :: sh.rows, rowNotes := [] :: sh.rowNotes }

/-- `Range.setValues([vals])` on the range `(1, 1, 1, vals.length)`:
overwrite the first `vals.length` cells of row 1. -/
def setRow1Values (sh : SheetState) (vals : List String) : SheetState :=
  { sh with rows := match sh.rows with
      | [] => [vals]
      | r :: rest => (vals ++ r.drop vals.length) :: rest }

/-- `Range.setNotes([notes])` on the same header range. -/
def setRow1Notes (sh : SheetState) (vals : List String) : SheetState :=
  { sh with rowNotes := match sh.rowNotes with
      | [] => [vals]
      | r :: rest => (vals ++ r.drop vals.length) :: rest }

def hasKey : List (String × String) → String → Bool
  | [], _ => false
  | p :: rest, nm => if p.1 = nm then true else hasKey rest nm

/-- Value of the first entry with the given key. -/
def lookupRange : List (String × String) → String → Option String
  | [], _ => none
  | p :: rest, nm => if p.1 = nm then some p.2 else lookupRange rest nm

/-- Number of entries with the given key. -/
def countKey : List (String × String) → String → Nat
  | [], _ => 0
  | p :: rest, nm => (if p.1 = nm then 1 else 0) + countKey rest nm

/-- `Spreadsheet.setNamedRange(name, range)`: create-or-replace keyed by
name. -/
def setNamedRange (ranges : List (String × String)) (nm target : String) :
    List (String × String) :=
  if hasKey ranges nm then
    ranges.map fun p => if p.1 = nm then (nm, target) else p
  else ranges ++ [(nm, target)]

/-- Create-or-replace on the background color of a range
(`Range.setBackground`). -/
def setBackgroundOf (bgs : List (String × String)) (rng color : String) :
    List (String × String) :=
  if hasKey bgs rng then
    bgs.map fun p => if p.1 = rng then (rng, color) else p
  else bgs ++ [(rng, color)]

/-! ### The materializer (src/sheet.ts `setupSheet`,
src/spreadsheet.ts `setupSpreadsheet`) -/

/-- The A1 reference the code builds for the data range of the column with
letter label `alpha`: `'<sheet name>'!<alpha>2:<alpha>` (row 2 to the open
end). -/
def a1DataRange (sheetName alpha : String) : String :=
  "'" ++ sheetName ++ "'!" ++ alpha ++ "2:" ++ alpha

/-- Named-range key `slugify(sheet name) + "__" + slugify(field name)`. -/
def rangeKey (sheetName fieldName : String) : String :=
  slugify sheetName ++ "__" ++ slugify fieldName

/-- The protection object produced by the sequence in src/sheet.ts:
`protection.getEditors()` is captured first, then `addEditor(me)` (a no-op
when `me` is already listed), then `removeEditors(editorEmails)` removes
every captured editor. -/
def protectFromCode (env : Env) (rng : String) : ProtectionState :=
  let editorEmails := env.freshProtectionEditors
  let afterAdd := if env.me ∈ editorEmails then editorEmails
    else editorEmails ++ [env.me]
  { range := rng, editors := afterAdd.filter fun e => decide (e ∉ editorEmails) }

/-- Body of the `schema.fields.forEach((field, index) => ...)` loop for one
field: register the named range, then protect and highlight when the field
is marked protected. -/
def setupFieldAt (env : Env) (sheetName : String) (field : FieldSchema) (index : Nat)
    (st : SpreadsheetState) : SpreadsheetState :=
  let alpha := indexToAlpha index
  let a1 := a1DataRange sheetName alpha
  let st := { st with namedRanges := setNamedRange st.namedRanges (rangeKey sheetName field.name) a1 }
  if field.protectedField then
    { st with protections := st.protections ++ [protectFromCode env a1],
              backgrounds := setBackgroundOf st.backgrounds a1 protectedBackgroundColor }
  else st

/-- The `forEach` loop over the fields, carrying the running index. -/
def setupFieldsFrom (env : Env) (sheetName : String) (fields : List FieldSchema)
    (index : Nat) (st : SpreadsheetState) : SpreadsheetState :=
  match fields with
  | [] => st
  | f :: rest => setupFieldsFrom env sheetName rest (index + 1) (setupFieldAt env sheetName f index st)

/-- The header phase of src/sheet.ts `setupSheet` on one sheet: insert a
blank row before row 1, freeze row 1, write the field names into row 1
(bold, centered — constant styling carried by every header cell, not
tracked as state) and the field notes (empty string when absent). -/
def applyHeader (schema : SheetSchema) (sh : SheetState) : SheetState :=
  setRow1Notes
    (setRow1Values { insertRowTop sh with frozenRows := 1 } (schema.fields.map (·.name)))
    (schema.fields.map fun f => f.notes.getD "")

/-- src/sheet.ts `setupSheet`: the header phase followed by the field loop.
The sheet argument of the TypeScript function is always the sheet named
`schema.name`, which is how it is addressed here. -/
def setupSheet (env : Env) (st : SpreadsheetState) (schema : SheetSchema) :
    SpreadsheetState :=
  setupFieldsFrom env schema.name schema.fields 0
    (updateSheetNamed st schema.name (applyHeader schema))

/-- The `schema.sheets.forEach` loop of src/spreadsheet.ts
`setupSpreadsheet`: for each sheet schema, look the sheet up by name,
create it only if absent, and run `setupSheet` on it. -/
def setupSheets (env : Env) (st : SpreadsheetState) : List SheetSchema → SpreadsheetState
  | [] => st
  | sch :: rest =>
    let st' := if (getSheetByName st sch.name).isSome then st else insertSheet st sch.name
    setupSheets env (setupSheet env st' sch) rest

/-- src/spreadsheet.ts `setupSpreadsheet`, restricted to the materializer
loop.  (The trailing `setupValidation` call only attaches data-validation
rules to the named ranges produced here; the spec scopes it out of the
materializer and no claim observes it.) -/
def setupSpreadsheet (env : Env) (st : SpreadsheetState) (schema : SpreadsheetSchema) :
    SpreadsheetState :=
  setupSheets env st schema.sheets


/-! ## Concrete inputs used to evaluate the claims

The acting identity of `demoEnv` already holds edit access, so it is among
the editors a fresh protection reports — the normal situation when a user
runs the script on their own spreadsheet. -/

def demoEnv : Env := ⟨"me@example.com", ["owner@example.com", "me@example.com"]⟩

def demoEmpty : SpreadsheetState := ⟨[], [], [], []⟩

def demoSheet : SheetSchema := ⟨"Manuscript", [⟨"ID", none, false⟩, ⟨"Title", none, true⟩]⟩

def demoSchema : SpreadsheetSchema := ⟨"T", [demoSheet]⟩

def demoRun1 : SpreadsheetState := setupSpreadsheet demoEnv demoEmpty demoSchema

def demoRun2 : SpreadsheetState := setupSpreadsheet demoEnv demoRun1 demoSchema

/-- A malformed schema: empty title, and two fields of the same sheet whose
names both slugify to `id`. -/
def dupSheet : SheetSchema := ⟨"S", [⟨"ID", none, false⟩, ⟨"Id", none, false⟩]⟩

def badSchema : SpreadsheetSchema := ⟨"", [dupSheet]⟩

/-! ## Write sequences over the named-range store -/

/-- Last value written for a key by a sequence of (key, value) writes. -/
def lastWrite : List (String × String) → String → Option String
  | [], _ => none
  | w :: rest, k =>
    match lastWrite rest k with
    | some v => some v
    | none => if w.1 = k then some w.2 else none

/-- Folding `setNamedRange` over a write sequence. -/
def applyWrites (l ws : List (String × String)) : List (String × String) :=
  ws.foldl (fun acc w => setNamedRange acc w.1 w.2) l

/-- The (range name, A1 target) pairs registered by the field loop of
`setupSheet`, starting from a given column index. -/
def fieldWritesFrom (sheetName : String) : List FieldSchema → Nat → List (String × String)
  | [], _ => []
  | f :: rest, index =>
    (rangeKey sheetName f.name, a1DataRange sheetName (indexToAlpha index)) ::
      fieldWritesFrom sheetName rest (index + 1)

/-! ### Derived descriptions of the materializer's effect -/

/-- All named-range writes issued for a list of sheet schemas, in order. -/
def writesOfSheets : List SheetSchema → List (String × String)
  | [] => []
  | s :: rest => fieldWritesFrom s.name s.fields 0 ++ writesOfSheets rest

/-- The names present after a lookup-or-create pass: existing names, then
the requested names that were missing, in request order. -/
def addMissing (names : List String) : List String → List String
  | [] => names
  | nm :: rest => addMissing (if nm ∈ names then names else names ++ [nm]) rest

/-- Names of the sheets of a spreadsheet state. -/
def sheetNames (st : SpreadsheetState) : List String := st.sheets.map (·.name)

/-- The named-range keys a sheet schema derives, in field order. -/
def sheetRangeKeys (s : SheetSchema) : List String :=
  s.fields.map fun f => rangeKey s.name f.name

/-- All named-range keys a schema derives, in sheet then field order. -/
def allRangeKeys : List SheetSchema → List String
  | [] => []
  | s :: rest => sheetRangeKeys s ++ allRangeKeys rest

/-- Protection objects created by the field loop over a field list. -/
def protectionsOfFields (env : Env) (sheetName : String) :
    List FieldSchema → Nat → List ProtectionState
  | [], _ => []
  | f :: rest, i =>
    (if f.protectedField then [protectFromCode env (a1DataRange sheetName (indexToAlpha i))]
      else []) ++ protectionsOfFields env sheetName rest (i + 1)

/-- Protection objects created by one materializer pass. -/
def protectionsOfSheets (env : Env) : List SheetSchema → List ProtectionState
  | [] => []
  | s :: rest => protectionsOfFields env s.name s.fields 0 ++ protectionsOfSheets env rest

/-- Cell rows of the sheet with the given name (empty when absent). -/
def rowsAt (st : SpreadsheetState) (nm : String) : List (List String) :=
  match getSheetByName st nm with
  | some sh => sh.rows
  | none => []

/-- Note rows of the sheet with the given name (empty when absent). -/
def rowNotesAt (st : SpreadsheetState) (nm : String) : List (List String) :=
  match getSheetByName st nm with
  | some sh => sh.rowNotes
  | none => []

/-- Value of a little-endian base-26 digit list. -/
def ofDigitsRev : List Nat → Nat
  | [] => 0
  | d :: rest => d + 26 * ofDigitsRev rest

/-- Value of a big-endian (most significant first) base-26 digit list. -/
def valMSD (l : List Nat) : Nat := l.foldl (fun acc d => acc * 26 + d) 0

/-! ## Lemmas about characters -/

theorem char_toNat_ofNat {n : Nat} (h : n.isValidChar) : (Char.ofNat n).toNat = n := by
  unfold Char.ofNat
  rw [dif_pos h]
  rfl

theorem toLower_toNat (c : Char) :
    (Char.toLower c).toNat =
      if 65 ≤ c.toNat ∧ c.toNat ≤ 90 then c.toNat + 32 else c.toNat := by
  unfold Char.toLower
  by_cases h : 65 ≤ c.toNat ∧ c.toNat ≤ 90
  · rw [if_pos h, if_pos ⟨h.1, h.2⟩]
    exact char_toNat_ofNat (Or.inl (by omega))
  · rw [if_neg h, if_neg fun hc => h ⟨hc.1, hc.2⟩]

theorem toLower_eq_self {c : Char} (h : ¬(65 ≤ c.toNat ∧ c.toNat ≤ 90)) :
    Char.toLower c = c := by
  unfold Char.toLower
  rw [if_neg fun hc => h ⟨hc.1, hc.2⟩]

theorem jsIsWhitespace_toLower (c : Char) :
    jsIsWhitespace (Char.toLower c) = jsIsWhitespace c := by
  unfold jsIsWhitespace jsWhitespaceNat
  rw [toLower_toNat c, decide_eq_decide]
  by_cases h : 65 ≤ c.toNat ∧ c.toNat ≤ 90
  · rw [if_pos h]; omega
  · rw [if_neg h]

theorem noWSRun_map_toLower : ∀ l : List Char, noWSRun (l.map Char.toLower) = noWSRun l
  | [] => rfl
  | [_] => rfl
  | c1 :: c2 :: rest => by
    simp only [List.map_cons, noWSRun, jsIsWhitespace_toLower]
    rw [show (Char.toLower c2 :: rest.map Char.toLower) = (c2 :: rest).map Char.toLower from rfl,
      noWSRun_map_toLower (c2 :: rest)]

theorem collapseWSAux_eq_map : ∀ (l : List Char) (b : Bool),
    noWSRun l = true → (b = true → headIsWS l = false) →
    collapseWSAux b l = l.map wsToUnderscore
  | [], _, _, _ => rfl
  | c :: rest, b, hrun, hb => by
    simp only [collapseWSAux, List.map_cons]
    by_cases hws : jsIsWhitespace c
    · rw [if_pos hws]
      have hbf : b = false := by
        cases b
        · rfl
        · exact absurd hws (by simpa [headIsWS] using hb rfl)
      subst hbf
      have hrest : noWSRun rest = true ∧ (headIsWS rest = false) := by
        cases rest with
        | nil => exact ⟨rfl, rfl⟩
        | cons d rest' =>
          simp only [noWSRun, Bool.and_eq_true, Bool.not_eq_true', Bool.and_eq_false_iff] at hrun
          refine ⟨hrun.2, ?_⟩
          simp only [headIsWS]
          rcases hrun.1 with h | h
          · exact absurd h (by simp [hws])
          · exact h
      rw [collapseWSAux_eq_map rest true hrest.1 (fun _ => hrest.2)]
      simp [wsToUnderscore, hws]
    · rw [if_neg hws]
      have hrest : noWSRun rest = true := by
        cases rest with
        | nil => rfl
        | cons d rest' =>
          simp only [noWSRun, Bool.and_eq_true] at hrun
          exact hrun.2
      rw [collapseWSAux_eq_map rest false hrest (by simp)]
      simp [wsToUnderscore, hws]

theorem toLower_not_upper (c : Char) :
    ¬(65 ≤ (Char.toLower c).toNat ∧ (Char.toLower c).toNat ≤ 90) := by
  rw [toLower_toNat]
  by_cases h : 65 ≤ c.toNat ∧ c.toNat ≤ 90
  · rw [if_pos h]; omega
  · rw [if_neg h]; omega

theorem slugLower_not_ws {n : Nat} (h : slugLowerNat n = true) : jsWhitespaceNat n = false := by
  unfold slugLowerNat at h
  unfold jsWhitespaceNat
  rw [decide_eq_true_iff] at h
  rw [decide_eq_false_iff_not]
  omega

theorem slugLower_word {n : Nat} (h : slugLowerNat n = true) : jsWordNat n = true := by
  unfold slugLowerNat at h
  unfold jsWordNat
  rw [decide_eq_true_iff] at h
  rw [decide_eq_true_iff]
  omega

theorem slugLower_not_upper {n : Nat} (h : slugLowerNat n = true) : ¬(65 ≤ n ∧ n ≤ 90) := by
  unfold slugLowerNat at h
  rw [decide_eq_true_iff] at h
  omega

/-- Every character `slugify` outputs is a lowercase letter, a digit or an
underscore. -/
theorem slugify_chars (s : String) :
    ∀ c ∈ (slugify s).data, slugLowerNat c.toNat = true := by
  intro c hc
  have hc' : c ∈ ((s.data.map Char.toLower).map wsToUnderscore).filter jsIsWordChar := hc
  rw [List.mem_filter] at hc'
  obtain ⟨hmem, hword⟩ := hc'
  rw [List.mem_map] at hmem
  obtain ⟨d, hd, rfl⟩ := hmem
  rw [List.mem_map] at hd
  obtain ⟨e, _, rfl⟩ := hd
  unfold wsToUnderscore at hword ⊢
  by_cases hws : jsIsWhitespace (Char.toLower e)
  · rw [if_pos hws]
    decide
  · rw [if_neg hws] at hword ⊢
    have hnu := toLower_not_upper e
    unfold jsIsWordChar jsWordNat at hword
    unfold slugLowerNat
    rw [decide_eq_true_iff] at hword
    rw [decide_eq_true_iff]
    omega

theorem map_id_of_mem {α : Type} {f : α → α} :
    ∀ {l : List α}, (∀ a ∈ l, f a = a) → l.map f = l := by
  intro l h
  induction l with
  | nil => rfl
  | cons a t ih =>
    simp only [List.map_cons]
    rw [h a (by simp), ih fun b hb => h b (by simp [hb])]

theorem filter_id_of_mem {α : Type} {p : α → Bool} :
    ∀ {l : List α}, (∀ a ∈ l, p a = true) → l.filter p = l := by
  intro l h
  induction l with
  | nil => rfl
  | cons a t ih =>
    rw [List.filter_cons, if_pos (h a (by simp)), ih fun b hb => h b (by simp [hb])]

/-- `slugify` fixes any string made of `[a-z0-9_]` characters. -/
theorem slugify_fix_of_chars {l : List Char} (h : ∀ c ∈ l, slugLowerNat c.toNat = true) :
    slugify (String.mk l) = String.mk l := by
  unfold slugify
  have h1 : l.map Char.toLower = l :=
    map_id_of_mem fun c hc => toLower_eq_self (slugLower_not_upper (h c hc))
  have h2 : l.map wsToUnderscore = l :=
    map_id_of_mem fun c hc => by
      unfold wsToUnderscore
      rw [if_neg]
      unfold jsIsWhitespace
      rw [slugLower_not_ws (h c hc)]
      exact Bool.false_ne_true
  have h3 : l.filter jsIsWordChar = l :=
    filter_id_of_mem fun c hc => by
      unfold jsIsWordChar
      exact slugLower_word (h c hc)
  show String.mk (((l.map Char.toLower).map wsToUnderscore).filter jsIsWordChar) = String.mk l
  rw [h1, h2, h3]

/-! ## Lemmas about the digit lists -/

theorem base26AuxRev_ne_nil {fuel n : Nat} (hf : 1 ≤ fuel) (hn : 1 ≤ n) :
    base26AuxRev fuel n ≠ [] := by
  match fuel, n with
  | f + 1, m + 1 => simp [base26AuxRev]

theorem toBase26Digits_ne_nil (n : Nat) : toBase26Digits n ≠ [] := by
  unfold toBase26Digits
  by_cases h : n = 0
  · rw [if_pos h]; simp
  · rw [if_neg h]
    simp only [ne_eq, List.reverse_eq_nil_iff]
    exact base26AuxRev_ne_nil (by omega) (by omega)

theorem jsAdjustHead_map_some (l : List Nat) :
    jsAdjustHead (l.map some) = (adjustHead l).map some := by
  cases l <;> rfl

theorem jsAdjustHead_length (l : List (Option Nat)) : (jsAdjustHead l).length = l.length := by
  match l with
  | [] => rfl
  | none :: rest => rfl
  | some d :: rest => rfl

theorem adjustHead_length (l : List Nat) : (adjustHead l).length = l.length := by
  cases l <;> rfl

theorem indexToAlphaJS_of_nonneg (n : Nat) : indexToAlphaJS n = indexToAlpha n := by
  unfold indexToAlphaJS indexToAlpha jsParsedDigits
  rw [if_neg (by omega)]
  simp only [Int.toNat_natCast]
  rw [List.length_map, jsAdjustHead_map_some]
  have hcomp : ∀ l : List Nat, (l.map some).map jsLetterOf = l.map letterOf := by
    intro l
    rw [List.map_map]
    rfl
  by_cases h : (toBase26Digits n).length > 1
  · rw [if_pos h, if_pos h, hcomp]
  · rw [if_neg h, if_neg h, hcomp]


theorem base26AuxRev_zero (fuel : Nat) : base26AuxRev fuel 0 = [] := by
  cases fuel <;> rfl

theorem ofDigitsRev_base26AuxRev : ∀ fuel n : Nat, n ≤ fuel →
    ofDigitsRev (base26AuxRev fuel n) = n := by
  intro fuel
  induction fuel with
  | zero =>
    intro n hn
    have : n = 0 := by omega
    subst this
    rfl
  | succ f ih =>
    intro n hn
    match n with
    | 0 => rfl
    | m + 1 =>
      simp only [base26AuxRev, ofDigitsRev]
      rw [ih ((m + 1) / 26) (by
        have := Nat.div_lt_self (show 0 < m + 1 by omega) (show 1 < 26 by omega)
        omega)]
      exact Nat.mod_add_div (m + 1) 26

theorem valMSD_foldl (l : List Nat) (acc : Nat) :
    l.foldl (fun acc d => acc * 26 + d) acc = acc * 26 ^ l.length + valMSD l := by
  induction l generalizing acc with
  | nil => simp [valMSD]
  | cons d rest ih =>
    simp only [List.foldl_cons, valMSD, List.length_cons]
    rw [ih (acc * 26 + d), ih (0 * 26 + d)]
    ring

theorem valMSD_reverse (l : List Nat) : valMSD l.reverse = ofDigitsRev l := by
  induction l with
  | nil => rfl
  | cons d rest ih =>
    simp only [List.reverse_cons, ofDigitsRev]
    unfold valMSD
    rw [List.foldl_append]
    simp only [List.foldl_cons, List.foldl_nil]
    rw [show (List.foldl (fun acc d => acc * 26 + d) 0 rest.reverse) = valMSD rest.reverse from rfl]
    rw [ih]
    ring

theorem valMSD_toBase26Digits (n : Nat) : valMSD (toBase26Digits n) = n := by
  unfold toBase26Digits
  by_cases h : n = 0
  · rw [if_pos h]
    subst h
    rfl
  · rw [if_neg h, valMSD_reverse, ofDigitsRev_base26AuxRev n n le_rfl]

theorem base26AuxRev_digit_lt : ∀ fuel n : Nat, ∀ d ∈ base26AuxRev fuel n, d < 26 := by
  intro fuel
  induction fuel with
  | zero => intro n d hd; simp [base26AuxRev] at hd
  | succ f ih =>
    intro n d hd
    match n with
    | 0 => simp [base26AuxRev] at hd
    | m + 1 =>
      simp only [base26AuxRev, List.mem_cons] at hd
      rcases hd with h | h
      · omega
      · exact ih _ d h

theorem toBase26Digits_digit_lt (n : Nat) : ∀ d ∈ toBase26Digits n, d < 26 := by
  unfold toBase26Digits
  by_cases h : n = 0
  · rw [if_pos h]; intro d hd; simp at hd; omega
  · rw [if_neg h]
    intro d hd
    rw [List.mem_reverse] at hd
    exact base26AuxRev_digit_lt n n d hd

theorem base26AuxRev_getLast_pos : ∀ fuel n : Nat, 1 ≤ n → n ≤ fuel →
    ∃ d, (base26AuxRev fuel n).getLast? = some d ∧ 1 ≤ d := by
  intro fuel
  induction fuel with
  | zero => intro n h1 h2; omega
  | succ f ih =>
    intro n h1 h2
    match n with
    | m + 1 =>
      simp only [base26AuxRev]
      by_cases hq : (m + 1) / 26 = 0
      · rw [hq, base26AuxRev_zero]
        refine ⟨(m + 1) % 26, rfl, ?_⟩
        have hlt : m + 1 < 26 := by omega
        rw [Nat.mod_eq_of_lt hlt]
        omega
      · have hub : (m + 1) / 26 ≤ f := by
          have := Nat.div_lt_self (show 0 < m + 1 by omega) (show 1 < 26 by omega)
          omega
        obtain ⟨d, hd, hd1⟩ := ih ((m + 1) / 26) (by omega) hub
        refine ⟨d, ?_, hd1⟩
        cases hx : base26AuxRev f ((m + 1) / 26) with
        | nil =>
          rw [hx] at hd
          simp at hd
        | cons y ys =>
          rw [hx] at hd
          rw [List.getLast?_cons_cons]
          exact hd

theorem letterOf_inj {d e : Nat} (hd : d < 26) (he : e < 26)
    (h : letterOf d = letterOf e) : d = e := by
  unfold letterOf at h
  have h1 := @char_toNat_ofNat (65 + d) (Or.inl (by omega))
  have h2 := @char_toNat_ofNat (65 + e) (Or.inl (by omega))
  have := congrArg Char.toNat h
  rw [h1, h2] at this
  omega

theorem map_letterOf_inj : ∀ {l1 l2 : List Nat}, (∀ d ∈ l1, d < 26) → (∀ d ∈ l2, d < 26) →
    l1.map letterOf = l2.map letterOf → l1 = l2
  | [], [], _, _, _ => rfl
  | [], _ :: _, _, _, h => by simp at h
  | _ :: _, [], _, _, h => by simp at h
  | d1 :: t1, d2 :: t2, h1, h2, h => by
    simp only [List.map_cons, List.cons.injEq] at h
    have hd := letterOf_inj (h1 d1 (by simp)) (h2 d2 (by simp)) h.1
    have ht := map_letterOf_inj (fun d hd => h1 d (by simp [hd]))
      (fun d hd => h2 d (by simp [hd])) h.2
    rw [hd, ht]

theorem toBase26Digits_head_pos {n : Nat} (hn : 1 ≤ n) :
    ∀ d rest, toBase26Digits n = d :: rest → 1 ≤ d := by
  intro d rest h
  unfold toBase26Digits at h
  rw [if_neg (by omega)] at h
  obtain ⟨e, he, he1⟩ := base26AuxRev_getLast_pos n n hn le_rfl
  rw [List.getLast?_eq_head?_reverse, h] at he
  simp only [List.head?_cons, Option.some.injEq] at he
  omega

theorem ifAdjust_length (l : List Nat) :
    (if l.length > 1 then adjustHead l else l).length = l.length := by
  split
  · exact adjustHead_length l
  · rfl

theorem ifAdjust_digit_lt {l : List Nat} (h : ∀ d ∈ l, d < 26) :
    ∀ d ∈ (if l.length > 1 then adjustHead l else l), d < 26 := by
  split
  · intro d hd
    match l, hd with
    | e :: rest, hd =>
      simp only [adjustHead, List.mem_cons] at hd
      rcases hd with h' | h'
      · have := h e (by simp)
        omega
      · exact h d (by simp [h'])
  · exact h

theorem toBase26Digits_zero : toBase26Digits 0 = [0] := rfl

theorem toBase26Digits_len_one_of_zero {n : Nat} (h : (toBase26Digits n).length > 1) :
    1 ≤ n := by
  by_contra hc
  have : n = 0 := by omega
  subst this
  simp [toBase26Digits_zero] at h

theorem indexToAlpha_inj : ∀ {a b : Nat}, indexToAlpha a = indexToAlpha b → a = b := by
  intro a b h
  unfold indexToAlpha at h
  have h' := congrArg String.data h
  simp only [] at h'
  have hDa := toBase26Digits_digit_lt a
  have hDb := toBase26Digits_digit_lt b
  have heq := map_letterOf_inj (ifAdjust_digit_lt hDa) (ifAdjust_digit_lt hDb) h'
  have hlen : (toBase26Digits a).length = (toBase26Digits b).length := by
    have := congrArg List.length heq
    rw [ifAdjust_length, ifAdjust_length] at this
    exact this
  by_cases hgt : (toBase26Digits a).length > 1
  · have hgtb : (toBase26Digits b).length > 1 := by omega
    rw [if_pos hgt, if_pos hgtb] at heq
    have ha1 := toBase26Digits_len_one_of_zero hgt
    have hb1 := toBase26Digits_len_one_of_zero hgtb
    cases hA : toBase26Digits a with
    | nil => exact absurd hA (toBase26Digits_ne_nil a)
    | cons da ta =>
      cases hB : toBase26Digits b with
      | nil => exact absurd hB (toBase26Digits_ne_nil b)
      | cons db tb =>
        rw [hA, hB] at heq
        simp only [adjustHead, List.cons.injEq] at heq
        have hda := toBase26Digits_head_pos ha1 da ta hA
        have hdb := toBase26Digits_head_pos hb1 db tb hB
        have hdd : da = db := by omega
        have : toBase26Digits a = toBase26Digits b := by
          rw [hA, hB, hdd, heq.2]
        calc a = valMSD (toBase26Digits a) := (valMSD_toBase26Digits a).symm
          _ = valMSD (toBase26Digits b) := by rw [this]
          _ = b := valMSD_toBase26Digits b
  · have hgtb : ¬(toBase26Digits b).length > 1 := by omega
    rw [if_neg hgt, if_neg hgtb] at heq
    calc a = valMSD (toBase26Digits a) := (valMSD_toBase26Digits a).symm
      _ = valMSD (toBase26Digits b) := by rw [heq]
      _ = b := valMSD_toBase26Digits b


theorem hasKey_false_lookup : ∀ {l : List (String × String)} {k : String},
    hasKey l k = false → lookupRange l k = none := by
  intro l k h
  induction l with
  | nil => rfl
  | cons p rest ih =>
    unfold hasKey at h
    unfold lookupRange
    by_cases hp : p.1 = k
    · rw [if_pos hp] at h
      exact absurd h (by simp)
    · rw [if_neg hp] at h
      rw [if_neg hp]
      exact ih h

theorem hasKey_false_mem : ∀ {l : List (String × String)} {k : String},
    hasKey l k = false → ∀ p ∈ l, p.1 ≠ k := by
  intro l k h
  induction l with
  | nil => intro p hp; simp at hp
  | cons q rest ih =>
    unfold hasKey at h
    by_cases hq : q.1 = k
    · rw [if_pos hq] at h
      exact absurd h (by simp)
    · rw [if_neg hq] at h
      intro p hp
      rcases List.mem_cons.1 hp with rfl | hmem
      · exact hq
      · exact ih h p hmem

theorem hasKey_false_countKey : ∀ {l : List (String × String)} {k : String},
    hasKey l k = false → countKey l k = 0 := by
  intro l k h
  induction l with
  | nil => rfl
  | cons p rest ih =>
    unfold hasKey at h
    unfold countKey
    by_cases hp : p.1 = k
    · rw [if_pos hp] at h
      exact absurd h (by simp)
    · rw [if_neg hp] at h
      rw [if_neg hp, ih h]

theorem lookupRange_nil (k : String) : lookupRange [] k = none := rfl

theorem lookupRange_cons (p : String × String) (rest : List (String × String)) (k : String) :
    lookupRange (p :: rest) k = if p.1 = k then some p.2 else lookupRange rest k := rfl

theorem hasKey_cons (p : String × String) (rest : List (String × String)) (k : String) :
    hasKey (p :: rest) k = if p.1 = k then true else hasKey rest k := rfl

theorem countKey_cons (p : String × String) (rest : List (String × String)) (k : String) :
    countKey (p :: rest) k = (if p.1 = k then 1 else 0) + countKey rest k := rfl

theorem lookup_mapUpdate (l : List (String × String)) (k v k' : String) :
    lookupRange (l.map fun p => if p.1 = k then (k, v) else p) k'
      = if k' = k then (if hasKey l k then some v else none) else lookupRange l k' := by
  induction l with
  | nil =>
    simp only [List.map_nil, lookupRange_nil]
    show (none : Option String) = if k' = k then (if false = true then some v else none) else none
    simp
  | cons p rest ih =>
    by_cases hp : p.1 = k <;> by_cases hkk : k' = k <;> by_cases hpk : p.1 = k' <;>
      simp_all [List.map_cons, lookupRange_cons, hasKey_cons]

theorem lookup_append (l1 l2 : List (String × String)) (k : String) :
    lookupRange (l1 ++ l2) k =
      match lookupRange l1 k with
      | some v => some v
      | none => lookupRange l2 k := by
  induction l1 with
  | nil => rfl
  | cons p rest ih =>
    rw [List.cons_append, lookupRange_cons, lookupRange_cons]
    by_cases hp : p.1 = k
    · rw [if_pos hp, if_pos hp]
    · rw [if_neg hp, if_neg hp, ih]

theorem lookup_setNamedRange (l : List (String × String)) (k v k' : String) :
    lookupRange (setNamedRange l k v) k' = if k' = k then some v else lookupRange l k' := by
  unfold setNamedRange
  by_cases hk : hasKey l k
  · rw [if_pos hk, lookup_mapUpdate, hk]
    by_cases hkk : k' = k
    · rw [if_pos hkk, if_pos hkk]
      simp
    · rw [if_neg hkk, if_neg hkk]
  · rw [if_neg hk, lookup_append]
    by_cases hkk : k' = k
    · rw [if_pos hkk, hkk, hasKey_false_lookup (by simpa using hk), lookupRange_cons]
      show (if k = k then some v else none) = some v
      rw [if_pos rfl]
    · rw [if_neg hkk]
      cases hl : lookupRange l k' with
      | some w => rfl
      | none =>
        rw [lookupRange_cons]
        show (if k = k' then some v else none) = none
        rw [if_neg fun h => hkk h.symm]

theorem countKey_mapUpdate (l : List (String × String)) (k v k' : String) :
    countKey (l.map fun p => if p.1 = k then (k, v) else p) k' = countKey l k' := by
  induction l with
  | nil => rfl
  | cons p rest ih =>
    by_cases hp : p.1 = k <;> by_cases hpk : p.1 = k' <;>
      simp_all [List.map_cons, countKey_cons]

theorem countKey_append (l1 l2 : List (String × String)) (k : String) :
    countKey (l1 ++ l2) k = countKey l1 k + countKey l2 k := by
  induction l1 with
  | nil => simp [countKey]
  | cons p rest ih =>
    rw [List.cons_append, countKey_cons, countKey_cons, ih]
    omega

theorem countKey_setNamedRange (l : List (String × String)) (k v k' : String) :
    countKey (setNamedRange l k v) k' =
      countKey l k' + (if k = k' ∧ hasKey l k = false then 1 else 0) := by
  unfold setNamedRange
  by_cases hk : hasKey l k
  · rw [if_pos hk, countKey_mapUpdate, if_neg (by simp [hk]), Nat.add_zero]
  · rw [if_neg hk, countKey_append, countKey_cons]
    by_cases hkk : k = k'
    · rw [if_pos hkk, if_pos ⟨hkk, by simpa using hk⟩]
      rfl
    · rw [if_neg hkk, if_neg (by simp [hkk])]
      rfl

theorem mem_setNamedRange {l : List (String × String)} {k v : String} {p : String × String}
    (hp : p ∈ setNamedRange l k v) : p = (k, v) ∨ (p ∈ l ∧ p.1 ≠ k) := by
  unfold setNamedRange at hp
  by_cases hk : hasKey l k
  · rw [if_pos hk] at hp
    rw [List.mem_map] at hp
    obtain ⟨q, hq, hqp⟩ := hp
    by_cases hqk : q.1 = k
    · rw [if_pos hqk] at hqp
      exact Or.inl hqp.symm
    · rw [if_neg hqk] at hqp
      exact Or.inr ⟨hqp ▸ hq, hqp ▸ hqk⟩
  · rw [if_neg hk] at hp
    rw [List.mem_append] at hp
    rcases hp with hp | hp
    · exact Or.inr ⟨hp, hasKey_false_mem (by simpa using hk) p hp⟩
    · simp at hp
      exact Or.inl hp

/-! ### Folding the writes -/

theorem applyWrites_nil (l : List (String × String)) : applyWrites l [] = l := rfl

theorem applyWrites_cons (l : List (String × String)) (w : String × String)
    (ws : List (String × String)) :
    applyWrites l (w :: ws) = applyWrites (setNamedRange l w.1 w.2) ws := rfl

theorem lastWrite_nil (k : String) : lastWrite [] k = none := rfl

theorem lastWrite_cons (w : String × String) (ws : List (String × String)) (k : String) :
    lastWrite (w :: ws) k =
      match lastWrite ws k with
      | some v => some v
      | none => if w.1 = k then some w.2 else none := rfl

theorem lastWrite_none_mem : ∀ {ws : List (String × String)} {k : String},
    lastWrite ws k = none → ∀ w ∈ ws, w.1 ≠ k := by
  intro ws k h
  induction ws with
  | nil => intro w hw; simp at hw
  | cons w rest ih =>
    rw [lastWrite_cons] at h
    intro q hq
    cases hlw : lastWrite rest k with
    | some v => rw [hlw] at h; simp at h
    | none =>
      rw [hlw] at h
      rcases List.mem_cons.1 hq with rfl | hmem
      · intro hqk
        rw [if_pos hqk] at h
        simp at h
      · exact ih hlw q hmem

theorem lookup_applyWrites : ∀ (ws l : List (String × String)) (k : String),
    lookupRange (applyWrites l ws) k =
      match lastWrite ws k with
      | some v => some v
      | none => lookupRange l k := by
  intro ws
  induction ws with
  | nil => intro l k; rfl
  | cons w rest ih =>
    intro l k
    rw [applyWrites_cons, ih, lastWrite_cons]
    cases hlw : lastWrite rest k with
    | some v => rfl
    | none =>
      rw [lookup_setNamedRange]
      by_cases hk : w.1 = k
      · rw [if_pos hk.symm, if_pos hk]
      · rw [if_neg fun h => hk h.symm, if_neg hk]

theorem hasKey_true_countKey_pos : ∀ {l : List (String × String)} {k : String},
    hasKey l k = true → 1 ≤ countKey l k := by
  intro l k h
  induction l with
  | nil => simp [hasKey] at h
  | cons p rest ih =>
    rw [hasKey_cons] at h
    rw [countKey_cons]
    by_cases hp : p.1 = k
    · rw [if_pos hp]
      omega
    · rw [if_neg hp] at h ⊢
      have := ih h
      omega

theorem countKey_applyWrites : ∀ (ws l : List (String × String)) (k : String),
    countKey (applyWrites l ws) k =
      if countKey l k = 0 then (if (lastWrite ws k).isSome then 1 else 0)
      else countKey l k := by
  intro ws
  induction ws with
  | nil =>
    intro l k
    rw [applyWrites_nil, lastWrite_nil]
    by_cases h : countKey l k = 0
    · rw [if_pos h]
      simp [h]
    · rw [if_neg h]
  | cons w rest ih =>
    intro l k
    rw [applyWrites_cons, ih, lastWrite_cons, countKey_setNamedRange]
    by_cases hk : w.1 = k
    · subst hk
      by_cases hH : hasKey l w.1 = true
      · have hcond : ¬(w.1 = w.1 ∧ hasKey l w.1 = false) := by simp [hH]
        rw [if_neg hcond, Nat.add_zero]
        have hpos := hasKey_true_countKey_pos hH
        have hne : ¬(countKey l w.1 = 0) := by omega
        rw [if_neg hne, if_neg hne]
      · have hH' : hasKey l w.1 = false := by
          cases hx : hasKey l w.1
          · rfl
          · exact absurd hx hH
        have hA : countKey l w.1 = 0 := hasKey_false_countKey hH'
        have hcond : w.1 = w.1 ∧ hasKey l w.1 = false := ⟨rfl, hH'⟩
        rw [if_pos hcond, hA, if_pos rfl]
        cases hlw : lastWrite rest w.1 with
        | some v => simp
        | none => simp
    · have hcond : ¬(w.1 = k ∧ hasKey l w.1 = false) := by simp [hk]
      rw [if_neg hcond, Nat.add_zero]
      cases hlw : lastWrite rest k with
      | some v => rfl
      | none => rw [if_neg hk]

/-! ## Component lemmas for the materializer -/

theorem setupFieldAt_namedRanges (env : Env) (nm : String) (f : FieldSchema) (i : Nat)
    (st : SpreadsheetState) :
    (setupFieldAt env nm f i st).namedRanges
      = setNamedRange st.namedRanges (rangeKey nm f.name) (a1DataRange nm (indexToAlpha i)) := by
  unfold setupFieldAt
  split <;> rfl

theorem setupFieldAt_sheets (env : Env) (nm : String) (f : FieldSchema) (i : Nat)
    (st : SpreadsheetState) :
    (setupFieldAt env nm f i st).sheets = st.sheets := by
  unfold setupFieldAt
  split <;> rfl

theorem setupFieldsFrom_namedRanges (env : Env) (nm : String) :
    ∀ (fields : List FieldSchema) (i : Nat) (st : SpreadsheetState),
    (setupFieldsFrom env nm fields i st).namedRanges
      = applyWrites st.namedRanges (fieldWritesFrom nm fields i) := by
  intro fields
  induction fields with
  | nil => intro i st; rfl
  | cons f rest ih =>
    intro i st
    show (setupFieldsFrom env nm rest (i + 1) (setupFieldAt env nm f i st)).namedRanges = _
    rw [ih (i + 1), setupFieldAt_namedRanges]
    rfl

theorem setupFieldsFrom_sheets (env : Env) (nm : String) :
    ∀ (fields : List FieldSchema) (i : Nat) (st : SpreadsheetState),
    (setupFieldsFrom env nm fields i st).sheets = st.sheets := by
  intro fields
  induction fields with
  | nil => intro i st; rfl
  | cons f rest ih =>
    intro i st
    show (setupFieldsFrom env nm rest (i + 1) (setupFieldAt env nm f i st)).sheets = _
    rw [ih (i + 1), setupFieldAt_sheets]

theorem setupSheet_namedRanges (env : Env) (st : SpreadsheetState) (sch : SheetSchema) :
    (setupSheet env st sch).namedRanges
      = applyWrites st.namedRanges (fieldWritesFrom sch.name sch.fields 0) := by
  unfold setupSheet
  rw [setupFieldsFrom_namedRanges]
  rfl

theorem setupSheet_sheets (env : Env) (st : SpreadsheetState) (sch : SheetSchema) :
    (setupSheet env st sch).sheets
      = st.sheets.map fun sh => if sh.name = sch.name then applyHeader sch sh else sh := by
  unfold setupSheet
  rw [setupFieldsFrom_sheets]
  rfl

theorem applyHeader_name (sch : SheetSchema) (sh : SheetState) :
    (applyHeader sch sh).name = sh.name := rfl

theorem applyHeader_rows (sch : SheetSchema) (sh : SheetState) :
    (applyHeader sch sh).rows = (sch.fields.map (·.name)) :: sh.rows := by
  unfold applyHeader setRow1Notes setRow1Values insertRowTop
  simp

theorem applyHeader_rowNotes (sch : SheetSchema) (sh : SheetState) :
    (applyHeader sch sh).rowNotes = (sch.fields.map fun f => f.notes.getD "") :: sh.rowNotes := by
  unfold applyHeader setRow1Notes setRow1Values insertRowTop
  simp

theorem applyHeader_frozenRows (sch : SheetSchema) (sh : SheetState) :
    (applyHeader sch sh).frozenRows = 1 := rfl

theorem insertSheet_namedRanges (st : SpreadsheetState) (nm : String) :
    (insertSheet st nm).namedRanges = st.namedRanges := rfl

theorem setupSheets_namedRanges (env : Env) :
    ∀ (sheets : List SheetSchema) (st : SpreadsheetState),
    (setupSheets env st sheets).namedRanges
      = applyWrites st.namedRanges (writesOfSheets sheets) := by
  intro sheets
  induction sheets with
  | nil => intro st; rfl
  | cons sch rest ih =>
    intro st
    show (setupSheets env (setupSheet env _ sch) rest).namedRanges = _
    rw [ih, setupSheet_namedRanges]
    have hst' : (if (getSheetByName st sch.name).isSome then st
        else insertSheet st sch.name).namedRanges = st.namedRanges := by
      split <;> rfl
    rw [hst']
    have hw : writesOfSheets (sch :: rest)
        = fieldWritesFrom sch.name sch.fields 0 ++ writesOfSheets rest := rfl
    rw [hw]
    unfold applyWrites
    rw [List.foldl_append]

/-! ### Sheets: lookup, names and rows -/

theorem findSheet_isSome_iff (l : List SheetState) (nm : String) :
    (findSheet l nm).isSome = true ↔ nm ∈ l.map (·.name) := by
  induction l with
  | nil => simp [findSheet]
  | cons sh rest ih =>
    show (if sh.name = nm then some sh else findSheet rest nm).isSome = true ↔ _
    by_cases h : sh.name = nm
    · rw [if_pos h]
      simp [h]
    · rw [if_neg h]
      simp only [List.map_cons, List.mem_cons]
      rw [ih]
      constructor
      · exact fun hm => Or.inr hm
      · rintro (hm | hm)
        · exact absurd hm.symm h
        · exact hm

theorem findSheet_cons (sh : SheetState) (rest : List SheetState) (nm : String) :
    findSheet (sh :: rest) nm = if sh.name = nm then some sh else findSheet rest nm := rfl

theorem findSheet_append (l1 l2 : List SheetState) (nm : String) :
    findSheet (l1 ++ l2) nm =
      match findSheet l1 nm with
      | some sh => some sh
      | none => findSheet l2 nm := by
  induction l1 with
  | nil => rfl
  | cons sh rest ih =>
    rw [List.cons_append, findSheet_cons, findSheet_cons]
    by_cases h : sh.name = nm
    · rw [if_pos h, if_pos h]
    · rw [if_neg h, if_neg h, ih]

theorem findSheet_map_update (l : List SheetState) (nm nm' : String) (f : SheetState → SheetState)
    (hf : ∀ sh, (f sh).name = sh.name) :
    findSheet (l.map fun sh => if sh.name = nm then f sh else sh) nm'
      = (findSheet l nm').map fun sh => if sh.name = nm then f sh else sh := by
  induction l with
  | nil => rfl
  | cons sh rest ih =>
    simp only [List.map_cons]
    have hname : (if sh.name = nm then f sh else sh).name = sh.name := by
      split
      · exact hf sh
      · rfl
    show (if (if sh.name = nm then f sh else sh).name = nm' then some (if sh.name = nm then f sh else sh)
        else findSheet (rest.map _) nm') = _
    rw [hname]
    by_cases h : sh.name = nm'
    · rw [if_pos h]
      show _ = (if sh.name = nm' then some sh else findSheet rest nm').map _
      rw [if_pos h]
      rfl
    · rw [if_neg h, ih]
      show _ = (if sh.name = nm' then some sh else findSheet rest nm').map _
      rw [if_neg h]

theorem getSheetByName_setupSheet (env : Env) (st : SpreadsheetState) (sch : SheetSchema)
    (nm : String) :
    getSheetByName (setupSheet env st sch) nm
      = (getSheetByName st nm).map fun sh => if sh.name = sch.name then applyHeader sch sh else sh := by
  unfold getSheetByName
  rw [setupSheet_sheets]
  exact findSheet_map_update st.sheets sch.name nm (applyHeader sch) (applyHeader_name sch)

theorem getSheetByName_insertSheet (st : SpreadsheetState) (nm nm' : String) :
    getSheetByName (insertSheet st nm) nm' =
      match getSheetByName st nm' with
      | some sh => some sh
      | none => if nm = nm' then some { name := nm, rows := [], rowNotes := [], frozenRows := 0 }
        else none := by
  unfold getSheetByName insertSheet
  rw [findSheet_append]
  cases findSheet st.sheets nm' with
  | some sh => rfl
  | none => rfl

theorem map_name_update (l : List SheetState) (nm : String) (f : SheetState → SheetState)
    (hf : ∀ sh, (f sh).name = sh.name) :
    (l.map fun sh => if sh.name = nm then f sh else sh).map (·.name) = l.map (·.name) := by
  induction l with
  | nil => rfl
  | cons sh rest ih =>
    simp only [List.map_cons, ih]
    congr 1
    split
    · exact hf sh
    · rfl

theorem setupSheet_names (env : Env) (st : SpreadsheetState) (sch : SheetSchema) :
    sheetNames (setupSheet env st sch) = sheetNames st := by
  unfold sheetNames
  rw [setupSheet_sheets]
  exact map_name_update st.sheets sch.name (applyHeader sch) (applyHeader_name sch)

theorem findSheet_name_eq : ∀ {l : List SheetState} {nm : String} {sh : SheetState},
    findSheet l nm = some sh → sh.name = nm := by
  intro l nm sh h
  induction l with
  | nil => simp [findSheet] at h
  | cons q rest ih =>
    rw [findSheet_cons] at h
    by_cases hq : q.name = nm
    · rw [if_pos hq] at h
      cases h
      exact hq
    · rw [if_neg hq] at h
      exact ih h

theorem sheetNames_insertSheet (st : SpreadsheetState) (nm : String) :
    sheetNames (insertSheet st nm) = sheetNames st ++ [nm] := by
  unfold sheetNames insertSheet
  simp

theorem setupSheets_names (env : Env) :
    ∀ (sheets : List SheetSchema) (st : SpreadsheetState),
    sheetNames (setupSheets env st sheets)
      = addMissing (sheetNames st) (sheets.map (·.name)) := by
  intro sheets
  induction sheets with
  | nil => intro st; rfl
  | cons sch rest ih =>
    intro st
    show sheetNames (setupSheets env (setupSheet env _ sch) rest) = _
    rw [ih, setupSheet_names]
    have hst' : sheetNames (if (getSheetByName st sch.name).isSome then st
        else insertSheet st sch.name)
        = if sch.name ∈ sheetNames st then sheetNames st else sheetNames st ++ [sch.name] := by
      by_cases h : sch.name ∈ sheetNames st
      · rw [if_pos h]
        have : (getSheetByName st sch.name).isSome = true := by
          unfold getSheetByName
          rw [findSheet_isSome_iff]
          exact h
        rw [if_pos this]
      · rw [if_neg h]
        have : ¬((getSheetByName st sch.name).isSome = true) := by
          unfold getSheetByName
          rw [findSheet_isSome_iff]
          exact h
        rw [if_neg this, sheetNames_insertSheet]
    rw [hst']
    rfl

theorem setupSheets_untouched (env : Env) :
    ∀ (sheets : List SheetSchema) (st : SpreadsheetState) (nm : String),
    nm ∉ sheets.map (·.name) →
    getSheetByName (setupSheets env st sheets) nm = getSheetByName st nm := by
  intro sheets
  induction sheets with
  | nil => intro st nm _; rfl
  | cons sch rest ih =>
    intro st nm hnm
    simp only [List.map_cons, List.mem_cons, not_or] at hnm
    show getSheetByName (setupSheets env (setupSheet env _ sch) rest) nm = _
    rw [ih _ nm hnm.2, getSheetByName_setupSheet]
    have hst' : getSheetByName (if (getSheetByName st sch.name).isSome then st
        else insertSheet st sch.name) nm = getSheetByName st nm := by
      split
      · rfl
      · rw [getSheetByName_insertSheet]
        cases hfs : getSheetByName st nm with
        | some sh => rfl
        | none =>
          show (if sch.name = nm then _ else none) = none
          rw [if_neg fun h => hnm.1 h.symm]
    rw [hst']
    cases hfs : getSheetByName st nm with
    | none => rfl
    | some sh =>
      have hname : sh.name = nm := findSheet_name_eq hfs
      show some (if sh.name = sch.name then applyHeader sch sh else sh) = some sh
      rw [if_neg (by rw [hname]; exact fun h => hnm.1 h)]

theorem getSheetByName_setupSheet_other (env : Env) (st : SpreadsheetState) (sch : SheetSchema)
    (nm : String) (h : nm ≠ sch.name) :
    getSheetByName (setupSheet env st sch) nm = getSheetByName st nm := by
  rw [getSheetByName_setupSheet]
  cases hfs : getSheetByName st nm with
  | none => rfl
  | some sh =>
    show some (if sh.name = sch.name then applyHeader sch sh else sh) = some sh
    rw [if_neg (by rw [findSheet_name_eq hfs]; exact h)]

theorem getSheetByName_lookupOrCreate_other (st : SpreadsheetState) (schName nm : String)
    (h : nm ≠ schName) :
    getSheetByName (if (getSheetByName st schName).isSome then st
      else insertSheet st schName) nm = getSheetByName st nm := by
  split
  · rfl
  · rw [getSheetByName_insertSheet]
    cases hfs : getSheetByName st nm with
    | some sh => rfl
    | none =>
      show (if schName = nm then _ else none) = none
      rw [if_neg fun heq => h heq.symm]

theorem setupSheets_found (env : Env) :
    ∀ (sheets : List SheetSchema) (st : SpreadsheetState) (s : SheetSchema),
    s ∈ sheets → (sheets.map (·.name)).Nodup →
    ∃ sh', getSheetByName (setupSheets env st sheets) s.name = some sh' ∧
      sh'.rows = (s.fields.map (·.name)) :: rowsAt st s.name ∧
      sh'.frozenRows = 1 ∧
      sh'.rowNotes = (s.fields.map fun f => f.notes.getD "") :: rowNotesAt st s.name := by
  intro sheets
  induction sheets with
  | nil => intro st s hmem _; simp at hmem
  | cons sch rest ih =>
    intro st s hmem hnd
    rw [List.map_cons, List.nodup_cons] at hnd
    rcases List.mem_cons.1 hmem with rfl | hmem'
    · -- s is the head schema
      show ∃ sh', getSheetByName (setupSheets env (setupSheet env _ s) rest) s.name = some sh' ∧ _
      rw [setupSheets_untouched env rest _ s.name hnd.1]
      rw [getSheetByName_setupSheet]
      cases hfs : getSheetByName st s.name with
      | some sh =>
        rw [if_pos (show (some sh : Option SheetState).isSome = true from rfl), hfs]
        refine ⟨applyHeader s sh, ?_, ?_, applyHeader_frozenRows s sh, ?_⟩
        · show some (if sh.name = s.name then applyHeader s sh else sh) = _
          rw [if_pos (findSheet_name_eq hfs)]
        · rw [applyHeader_rows]
          unfold rowsAt
          rw [hfs]
        · rw [applyHeader_rowNotes]
          unfold rowNotesAt
          rw [hfs]
      | none =>
        rw [if_neg (show ¬((none : Option SheetState).isSome = true) by simp),
          getSheetByName_insertSheet, hfs]
        rw [if_pos rfl]
        refine ⟨applyHeader s { name := s.name, rows := [], rowNotes := [], frozenRows := 0 },
          ?_, ?_, applyHeader_frozenRows s _, ?_⟩
        · show some (if s.name = s.name then _ else _) = _
          rw [if_pos rfl]
        · rw [applyHeader_rows]
          unfold rowsAt
          rw [hfs]
        · rw [applyHeader_rowNotes]
          unfold rowNotesAt
          rw [hfs]
    · -- s is further down the list
      have hne : s.name ≠ sch.name := by
        intro h
        exact hnd.1 (h ▸ List.mem_map_of_mem (·.name) hmem')
      show ∃ sh', getSheetByName (setupSheets env (setupSheet env _ sch) rest) s.name = some sh' ∧ _
      have hrows : rowsAt (setupSheet env (if (getSheetByName st sch.name).isSome then st
          else insertSheet st sch.name) sch) s.name = rowsAt st s.name := by
        unfold rowsAt
        rw [getSheetByName_setupSheet_other env _ sch s.name hne,
          getSheetByName_lookupOrCreate_other st sch.name s.name hne]
      have hnotes : rowNotesAt (setupSheet env (if (getSheetByName st sch.name).isSome then st
          else insertSheet st sch.name) sch) s.name = rowNotesAt st s.name := by
        unfold rowNotesAt
        rw [getSheetByName_setupSheet_other env _ sch s.name hne,
          getSheetByName_lookupOrCreate_other st sch.name s.name hne]
      have := ih (setupSheet env (if (getSheetByName st sch.name).isSome then st
        else insertSheet st sch.name) sch) s hmem' hnd.2
      rw [hrows, hnotes] at this
      exact this

/-! ### Protections -/

theorem setupFieldAt_protections (env : Env) (nm : String) (f : FieldSchema) (i : Nat)
    (st : SpreadsheetState) :
    (setupFieldAt env nm f i st).protections = st.protections ++
      (if f.protectedField then [protectFromCode env (a1DataRange nm (indexToAlpha i))]
        else []) := by
  unfold setupFieldAt
  split
  · rfl
  · rw [List.append_nil]

theorem setupFieldsFrom_protections (env : Env) (nm : String) :
    ∀ (fields : List FieldSchema) (i : Nat) (st : SpreadsheetState),
    (setupFieldsFrom env nm fields i st).protections
      = st.protections ++ protectionsOfFields env nm fields i := by
  intro fields
  induction fields with
  | nil => intro i st; simp [setupFieldsFrom, protectionsOfFields]
  | cons f rest ih =>
    intro i st
    show (setupFieldsFrom env nm rest (i + 1) (setupFieldAt env nm f i st)).protections = _
    rw [ih (i + 1), setupFieldAt_protections]
    show _ = st.protections ++ ((if f.protectedField then _ else []) ++ protectionsOfFields env nm rest (i + 1))
    rw [List.append_assoc]

theorem setupSheet_protections (env : Env) (st : SpreadsheetState) (sch : SheetSchema) :
    (setupSheet env st sch).protections
      = st.protections ++ protectionsOfFields env sch.name sch.fields 0 := by
  unfold setupSheet
  rw [setupFieldsFrom_protections]
  rfl

theorem setupSheets_protections (env : Env) :
    ∀ (sheets : List SheetSchema) (st : SpreadsheetState),
    (setupSheets env st sheets).protections
      = st.protections ++ protectionsOfSheets env sheets := by
  intro sheets
  induction sheets with
  | nil => intro st; simp [setupSheets, protectionsOfSheets]
  | cons sch rest ih =>
    intro st
    show (setupSheets env (setupSheet env _ sch) rest).protections = _
    rw [ih, setupSheet_protections]
    have hst' : (if (getSheetByName st sch.name).isSome then st
        else insertSheet st sch.name).protections = st.protections := by
      split <;> rfl
    rw [hst']
    show _ = st.protections ++ (protectionsOfFields env sch.name sch.fields 0 ++ protectionsOfSheets env rest)
    rw [List.append_assoc]

/-- The net effect of the protect / addEditor / removeEditors sequence: every
editor the fresh protection listed is removed; the acting identity survives
only when it was not among them. -/
theorem protectFromCode_editors (env : Env) (rng : String) :
    (protectFromCode env rng).editors =
      if env.me ∈ env.freshProtectionEditors then [] else [env.me] := by
  by_cases hm : env.me ∈ env.freshProtectionEditors
  · simp only [protectFromCode, if_pos hm]
    rw [List.filter_eq_nil_iff]
    intro e he
    simp [he]
  · simp only [protectFromCode, if_neg hm]
    rw [List.filter_append]
    have h1 : List.filter (fun e => decide (e ∉ env.freshProtectionEditors))
        env.freshProtectionEditors = [] := by
      rw [List.filter_eq_nil_iff]
      intro e he
      simp [he]
    have h2 : List.filter (fun e => decide (e ∉ env.freshProtectionEditors)) [env.me]
        = [env.me] := by
      rw [List.filter_cons]
      simp [hm]
    rw [h1, h2, List.nil_append]

/-! ### Keys, membership and last writes -/

theorem mem_applyWrites : ∀ {ws l : List (String × String)} {p : String × String},
    p ∈ applyWrites l ws →
    lastWrite ws p.1 = some p.2 ∨ (p ∈ l ∧ lastWrite ws p.1 = none) := by
  intro ws
  induction ws with
  | nil => intro l p hp; exact Or.inr ⟨hp, rfl⟩
  | cons w rest ih =>
    intro l p hp
    rw [applyWrites_cons] at hp
    rcases ih hp with h | ⟨hmem, hnone⟩
    · rw [lastWrite_cons, h]
      exact Or.inl rfl
    · rcases mem_setNamedRange hmem with rfl | ⟨hl, hne⟩
      · left
        rw [lastWrite_cons, hnone]
        simp
      · right
        refine ⟨hl, ?_⟩
        rw [lastWrite_cons, hnone]
        show (if w.1 = p.1 then some w.2 else none) = none
        rw [if_neg fun h => hne h.symm]

theorem lastWrite_some_key : ∀ {ws : List (String × String)} {k v : String},
    lastWrite ws k = some v → k ∈ ws.map Prod.fst := by
  intro ws
  induction ws with
  | nil => intro k v h; simp [lastWrite] at h
  | cons w rest ih =>
    intro k v h
    rw [lastWrite_cons] at h
    cases hlw : lastWrite rest k with
    | some u =>
      rw [List.map_cons]
      exact List.mem_cons_of_mem _ (ih hlw)
    | none =>
      rw [hlw] at h
      by_cases hk : w.1 = k
      · rw [List.map_cons, hk]
        exact List.mem_cons_self _ _
      · rw [if_neg hk] at h
        simp at h

theorem lastWrite_of_mem_nodup : ∀ {ws : List (String × String)} {k v : String},
    (k, v) ∈ ws → (ws.map Prod.fst).Nodup → lastWrite ws k = some v := by
  intro ws
  induction ws with
  | nil => intro k v h _; simp at h
  | cons w rest ih =>
    intro k v hmem hnd
    rw [List.map_cons, List.nodup_cons] at hnd
    rw [lastWrite_cons]
    rcases List.mem_cons.1 hmem with rfl | hmem'
    · have hrest : lastWrite rest k = none := by
        cases hlw : lastWrite rest k with
        | none => rfl
        | some u => exact absurd (lastWrite_some_key hlw) hnd.1
      rw [hrest]
      simp
    · rw [ih hmem' hnd.2]

theorem countKey_eq_zero_of_not_mem : ∀ {l : List (String × String)} {k : String},
    k ∉ l.map Prod.fst → countKey l k = 0 := by
  intro l k h
  induction l with
  | nil => rfl
  | cons p rest ih =>
    rw [List.map_cons] at h
    rw [countKey_cons]
    have h1 : p.1 ≠ k := fun heq => h (heq ▸ List.mem_cons_self _ _)
    have h2 : k ∉ rest.map Prod.fst := fun hm => h (List.mem_cons_of_mem _ hm)
    rw [if_neg h1, ih h2]

theorem countKey_le_one_of_nodup : ∀ {l : List (String × String)} {k : String},
    (l.map Prod.fst).Nodup → countKey l k ≤ 1 := by
  intro l k h
  induction l with
  | nil => simp [countKey]
  | cons p rest ih =>
    rw [List.map_cons, List.nodup_cons] at h
    rw [countKey_cons]
    by_cases hp : p.1 = k
    · rw [if_pos hp]
      rw [countKey_eq_zero_of_not_mem (hp ▸ h.1)]
    · rw [if_neg hp]
      have := ih h.2
      omega

theorem fieldWritesFrom_keys (nm : String) : ∀ (fields : List FieldSchema) (i : Nat),
    (fieldWritesFrom nm fields i).map Prod.fst = fields.map fun f => rangeKey nm f.name := by
  intro fields
  induction fields with
  | nil => intro i; rfl
  | cons f rest ih =>
    intro i
    show (rangeKey nm f.name) :: (fieldWritesFrom nm rest (i + 1)).map Prod.fst = _
    rw [ih (i + 1)]
    rfl

theorem writesOfSheets_keys : ∀ sheets : List SheetSchema,
    (writesOfSheets sheets).map Prod.fst = allRangeKeys sheets := by
  intro sheets
  induction sheets with
  | nil => rfl
  | cons s rest ih =>
    show (fieldWritesFrom s.name s.fields 0 ++ writesOfSheets rest).map Prod.fst = _
    rw [List.map_append, ih, fieldWritesFrom_keys]
    rfl

theorem mem_fieldWritesFrom (nm : String) :
    ∀ (fields : List FieldSchema) (j start : Nat) (f : FieldSchema),
    fields.get? j = some f →
    (rangeKey nm f.name, a1DataRange nm (indexToAlpha (start + j))) ∈ fieldWritesFrom nm fields start := by
  intro fields
  induction fields with
  | nil => intro j start f h; simp at h
  | cons g rest ih =>
    intro j start f h
    match j with
    | 0 =>
      simp only [List.get?, Option.some.injEq] at h
      subst h
      rw [Nat.add_zero]
      exact List.mem_cons_self _ _
    | j' + 1 =>
      simp only [List.get?] at h
      have := ih j' (start + 1) f h
      have harith : start + 1 + j' = start + (j' + 1) := by omega
      rw [harith] at this
      exact List.mem_cons_of_mem _ this

theorem mem_writesOfSheets : ∀ {sheets : List SheetSchema} {s : SheetSchema}
    {w : String × String}, s ∈ sheets → w ∈ fieldWritesFrom s.name s.fields 0 →
    w ∈ writesOfSheets sheets := by
  intro sheets
  induction sheets with
  | nil => intro s w h _; simp at h
  | cons t rest ih =>
    intro s w hmem hw
    show w ∈ fieldWritesFrom t.name t.fields 0 ++ writesOfSheets rest
    rw [List.mem_append]
    rcases List.mem_cons.1 hmem with rfl | hmem'
    · exact Or.inl hw
    · exact Or.inr (ih hmem' hw)

/-! ### Last writes of the field loop -/

theorem lastWrite_fieldWrites_none (nm : String) :
    ∀ (fields : List FieldSchema) (start : Nat) (k : String),
    (∀ idx f, fields.get? idx = some f → rangeKey nm f.name ≠ k) →
    lastWrite (fieldWritesFrom nm fields start) k = none := by
  intro fields
  induction fields with
  | nil => intro start k _; rfl
  | cons g rest ih =>
    intro start k hno
    show lastWrite ((rangeKey nm g.name, _) :: fieldWritesFrom nm rest (start + 1)) k = none
    rw [lastWrite_cons, ih (start + 1) k fun idx f hf => hno (idx + 1) f hf]
    rw [if_neg (hno 0 g rfl)]

theorem lastWrite_fieldWrites_last (nm : String) :
    ∀ (fields : List FieldSchema) (j start : Nat) (fj : FieldSchema) (k : String),
    fields.get? j = some fj → rangeKey nm fj.name = k →
    (∀ idx f, j < idx → fields.get? idx = some f → rangeKey nm f.name ≠ k) →
    lastWrite (fieldWritesFrom nm fields start) k
      = some (a1DataRange nm (indexToAlpha (start + j))) := by
  intro fields
  induction fields with
  | nil => intro j start fj k hj _ _; simp at hj
  | cons g rest ih =>
    intro j start fj k hj hkey hlater
    show lastWrite ((rangeKey nm g.name, a1DataRange nm (indexToAlpha start))
      :: fieldWritesFrom nm rest (start + 1)) k = _
    rw [lastWrite_cons]
    match j with
    | 0 =>
      simp only [List.get?, Option.some.injEq] at hj
      subst hj
      have hnone : lastWrite (fieldWritesFrom nm rest (start + 1)) k = none := by
        apply lastWrite_fieldWrites_none
        intro idx f hf
        exact hlater (idx + 1) f (by omega) hf
      rw [hnone, if_pos hkey, Nat.add_zero]
    | j' + 1 =>
      simp only [List.get?] at hj
      have hrec := ih j' (start + 1) fj k hj hkey
        fun idx f hlt hf => hlater (idx + 1) f (by omega) hf
      rw [hrec]
      have harith : start + 1 + j' = start + (j' + 1) := by omega
      rw [harith]

theorem lastWrite_fieldWrites_inv (nm : String) :
    ∀ (fields : List FieldSchema) (start : Nat) (k v : String),
    lastWrite (fieldWritesFrom nm fields start) k = some v →
    ∃ jx fx, fields.get? jx = some fx ∧ rangeKey nm fx.name = k ∧
      v = a1DataRange nm (indexToAlpha (start + jx)) ∧
      (∀ jy fy, jx < jy → fields.get? jy = some fy → rangeKey nm fy.name ≠ k) := by
  intro fields
  induction fields with
  | nil => intro start k v h; simp [fieldWritesFrom, lastWrite] at h
  | cons g rest ih =>
    intro start k v h
    rw [show fieldWritesFrom nm (g :: rest) start
      = (rangeKey nm g.name, a1DataRange nm (indexToAlpha start))
        :: fieldWritesFrom nm rest (start + 1) from rfl, lastWrite_cons] at h
    cases hlw : lastWrite (fieldWritesFrom nm rest (start + 1)) k with
    | some u =>
      rw [hlw] at h
      injection h with h
      subst h
      obtain ⟨jx, fx, hget, hkey, hval, hlater⟩ := ih (start + 1) k _ hlw
      refine ⟨jx + 1, fx, hget, hkey, ?_, ?_⟩
      · rw [hval]
        have harith : start + 1 + jx = start + (jx + 1) := by omega
        rw [harith]
      · intro jy fy hlt hgy
        match jy, hlt with
        | jy' + 1, hlt =>
          exact hlater jy' fy (by omega) hgy
    | none =>
      rw [hlw] at h
      by_cases hk : rangeKey nm g.name = k
      · rw [if_pos hk] at h
        cases h
        refine ⟨0, g, rfl, hk, by rw [Nat.add_zero], ?_⟩
        intro jy fy hlt hgy
        match jy, hlt with
        | jy' + 1, _ =>
          simp only [List.get?] at hgy
          intro hkey
          have hmem := mem_fieldWritesFrom nm rest jy' (start + 1) fy hgy
          exact lastWrite_none_mem hlw _ hmem hkey
      · rw [if_neg hk] at h
        simp at h

/-- The A1 reference determines the column label. -/
theorem a1DataRange_inj {nm x y : String} (h : a1DataRange nm x = a1DataRange nm y) :
    x = y := by
  unfold a1DataRange at h
  have hd := congrArg String.data h
  simp only [String.data_append, List.append_assoc] at hd
  have h1 := List.append_cancel_left hd
  have h2 := List.append_cancel_left h1
  have h3 := List.append_cancel_left h2
  have hlen : x.data.length = y.data.length := by
    have := congrArg List.length h3
    simp only [List.length_append] at this
    omega
  have h4 := (List.append_inj h3 hlen).1
  exact congrArg String.mk h4

/-! ### Lookup-or-create name lists -/

theorem addMissing_mem_left : ∀ (ns names : List String) (nm : String),
    nm ∈ names → nm ∈ addMissing names ns := by
  intro ns
  induction ns with
  | nil => intro names nm h; exact h
  | cons t rest ih =>
    intro names nm h
    show nm ∈ addMissing (if t ∈ names then names else names ++ [t]) rest
    apply ih
    split
    · exact h
    · exact List.mem_append_left _ h

theorem addMissing_mem_right : ∀ (ns names : List String) (nm : String),
    nm ∈ ns → nm ∈ addMissing names ns := by
  intro ns
  induction ns with
  | nil => intro names nm h; simp at h
  | cons t rest ih =>
    intro names nm h
    show nm ∈ addMissing (if t ∈ names then names else names ++ [t]) rest
    rcases List.mem_cons.1 h with rfl | h'
    · apply addMissing_mem_left
      split
      · assumption
      · exact List.mem_append_right _ (by simp)
    · exact ih _ nm h'

theorem addMissing_id : ∀ (ns names : List String),
    (∀ nm ∈ ns, nm ∈ names) → addMissing names ns = names := by
  intro ns
  induction ns with
  | nil => intro names _; rfl
  | cons t rest ih =>
    intro names h
    show addMissing (if t ∈ names then names else names ++ [t]) rest = names
    rw [if_pos (h t (by simp))]
    exact ih names fun nm hm => h nm (by simp [hm])

theorem addMissing_nodup : ∀ (ns names : List String),
    names.Nodup → (addMissing names ns).Nodup := by
  intro ns
  induction ns with
  | nil => intro names h; exact h
  | cons t rest ih =>
    intro names h
    show (addMissing (if t ∈ names then names else names ++ [t]) rest).Nodup
    apply ih
    by_cases ht : t ∈ names
    · rw [if_pos ht]
      exact h
    · rw [if_neg ht]
      rw [List.nodup_append]
      refine ⟨h, List.nodup_singleton t, ?_⟩
      intro a ha hat
      simp only [List.mem_singleton] at hat
      subst hat
      exact ht ha

/-! ## The claims -/

set_option maxRecDepth 10000

/-- C1: evaluation of the column-label encoder at the spec's six example
points.  The first four match the spec; at 701 and 702 the code returns
"AAZ" and "ABA" where the bijective base-26 labels (and the spec) say "ZZ"
and "AAA" — the single minus-one adjustment does not implement bijective
base-26 beyond index 675. -/
theorem claim_c1_encoder_examples :
    indexToAlpha 0 = "A" ∧ indexToAlpha 25 = "Z" ∧ indexToAlpha 26 = "AA" ∧
    indexToAlpha 27 = "AB" ∧ indexToAlpha 701 = "AAZ" ∧ indexToAlpha 702 = "ABA" ∧
    columnLabelSpec 701 = "ZZ" ∧ columnLabelSpec 702 = "AAA" ∧
    indexToAlpha 701 ≠ columnLabelSpec 701 ∧ indexToAlpha 702 ≠ columnLabelSpec 702 := by
  decide

/-- C9 counterexample: index 676 lies in the claimed range 0..701, but the
code yields "AAA" where the bijective label is "ZA". -/
theorem claim_c9_counterexample :
    676 ≤ 701 ∧ indexToAlpha 676 = "AAA" ∧ columnLabelSpec 676 = "ZA" ∧
    indexToAlpha 676 ≠ columnLabelSpec 676 := by
  decide

/-- C9 amended: the code's single minus-one adjustment yields the exact
bijective base-26 label for every index up to 675 (labels "A" through
"YZ"), and 675 is sharp (see the counterexample at 676). -/
theorem claim_c9_amended : ∀ n : Nat, n ≤ 675 → indexToAlpha n = columnLabelSpec n := by
  decide

theorem claim_c9_witness : 27 ≤ 675 ∧ indexToAlpha 27 = columnLabelSpec 27 :=
  ⟨by decide, claim_c9_amended 27 (by decide)⟩

/-- C8 counterexample: at index −1 the encoder does not fail with any
error; it silently returns the two-character string NUL·"B". -/
theorem claim_c8_counterexample :
    indexToAlphaJS (-1) = String.mk [Char.ofNat 0, 'B'] ∧ indexToAlphaJS (-1) ≠ "" := by
  decide

theorem stringMk_ne_empty {l : List Char} (h : l ≠ []) : String.mk l ≠ "" :=
  fun he => h (congrArg String.data he)

theorem jsParsedDigits_ne_nil (i : Int) : jsParsedDigits i ≠ [] := by
  unfold jsParsedDigits
  split
  · simp
  · simp [toBase26Digits_ne_nil]

/-- C8 amended: the encoder is defined at every integer index and never
fails: for a non-negative index it returns the (nonempty) label, and for a
negative index it does not raise an error but returns a garbage string
whose first character is NUL. -/
theorem claim_c8_amended (i : Int) :
    indexToAlphaJS i ≠ "" ∧
    (i < 0 → (indexToAlphaJS i).data.head? = some (Char.ofNat 0)) ∧
    (0 ≤ i → indexToAlphaJS i = indexToAlpha i.toNat) := by
  refine ⟨?_, ?_, ?_⟩
  · show String.mk ((if (jsParsedDigits i).length > 1 then jsAdjustHead (jsParsedDigits i)
      else jsParsedDigits i).map jsLetterOf) ≠ ""
    apply stringMk_ne_empty
    intro hnil
    have hlen := congrArg List.length hnil
    rw [List.length_map, List.length_nil] at hlen
    have hlen' : (jsParsedDigits i).length = 0 := by
      by_cases hgt : (jsParsedDigits i).length > 1
      · rw [if_pos hgt, jsAdjustHead_length] at hlen
        exact hlen
      · rw [if_neg hgt] at hlen
        exact hlen
    exact jsParsedDigits_ne_nil i (List.length_eq_zero.1 hlen')
  · intro hneg
    cases hD : toBase26Digits (-i).toNat with
    | nil => exact absurd hD (toBase26Digits_ne_nil _)
    | cons d rest =>
      have hdig : jsParsedDigits i = none :: some d :: rest.map some := by
        unfold jsParsedDigits
        rw [if_pos hneg, hD]
        rfl
      show ((if (jsParsedDigits i).length > 1 then jsAdjustHead (jsParsedDigits i)
        else jsParsedDigits i).map jsLetterOf).head? = _
      rw [hdig, if_pos (by simp)]
      rfl
  · intro hpos
    have hi : i = ((i.toNat : Nat) : Int) := (Int.toNat_of_nonneg hpos).symm
    calc indexToAlphaJS i = indexToAlphaJS ((i.toNat : Nat) : Int) := by rw [← hi]
      _ = indexToAlpha i.toNat := indexToAlphaJS_of_nonneg i.toNat

theorem claim_c8_witness :
    indexToAlphaJS (-1) ≠ "" ∧ (indexToAlphaJS (-1)).data.head? = some (Char.ofNat 0) ∧
    indexToAlphaJS 5 = indexToAlpha (5 : Int).toNat :=
  ⟨(claim_c8_amended (-1)).1, (claim_c8_amended (-1)).2.1 (by decide),
    (claim_c8_amended 5).2.2 (by decide)⟩

/-- C3 counterexample: on an input with two consecutive spaces the code
produces two underscores (one per whitespace character), while the claim's
run-collapsing description produces one. -/
theorem claim_c3_counterexample :
    slugify "a  b" = "a__b" ∧ slugifySpecRuns "a  b" = "a_b" ∧
    slugify "a  b" ≠ slugifySpecRuns "a  b" := by
  decide

/-- C3 amended: slugify lowercases, replaces each whitespace character
separately by an underscore (a run of k whitespace characters becomes k
underscores), then removes every remaining character outside `[a-z0-9_]`;
it agrees with the claim's run-collapsing description exactly on inputs
with no two consecutive whitespace characters, and the two spec examples
hold. -/
theorem claim_c3_amended (s : String) (h : noWSRun s.data = true) :
    slugify s = slugifySpecRuns s ∧
    slugify "Story Origin" = "story_origin" ∧ slugify "Macomber ID" = "macomber_id" := by
  refine ⟨?_, by decide, by decide⟩
  unfold slugify slugifySpecRuns
  rw [collapseWSAux_eq_map (s.data.map Char.toLower) false
    (by rw [noWSRun_map_toLower]; exact h) (by simp)]

theorem claim_c3_witness :
    noWSRun ("Story Origin").data = true ∧
    slugify "Story Origin" = slugifySpecRuns "Story Origin" :=
  ⟨by decide, (claim_c3_amended "Story Origin" (by decide)).1⟩

/-- C6: slugify is idempotent, and every character of its output is in
`[a-z0-9_]` (i.e. the output matches `^[a-z0-9_]*$`). -/
theorem claim_c6_idempotent_charset (x : String) :
    slugify (slugify x) = slugify x ∧
    (slugify x).data.all (fun c => slugLowerNat c.toNat) = true := by
  constructor
  · exact slugify_fix_of_chars (slugify_chars x)
  · rw [List.all_eq_true]
    intro c hc
    exact slugify_chars x c hc

/-- C2 counterexample: running the materializer twice on the same schema
duplicates the header row (the old header survives as data in row 2) and
creates a second protection object for the protected column, so the state
after two runs differs from the state after one. -/
theorem claim_c2_counterexample :
    (getSheetByName demoRun1 "Manuscript").map (·.rows) = some [["ID", "Title"]] ∧
    (getSheetByName demoRun2 "Manuscript").map (·.rows)
      = some [["ID", "Title"], ["ID", "Title"]] ∧
    demoRun1.protections.length = 1 ∧ demoRun2.protections.length = 2 ∧
    demoRun2 ≠ demoRun1 := by
  decide

/-- C2 amended: re-running the materializer is idempotent on the sheet list
and on the named-range store (same lookup results and same multiplicities),
but not on sheet contents or protections: each run inserts a fresh header
row above the previous one and appends a new protection object per
protected field. -/
theorem claim_c2_amended (env : Env) (st : SpreadsheetState) (schema : SpreadsheetSchema)
    (hnd : (schema.sheets.map (·.name)).Nodup) :
    sheetNames (setupSpreadsheet env (setupSpreadsheet env st schema) schema)
      = sheetNames (setupSpreadsheet env st schema) ∧
    (∀ k, lookupRange (setupSpreadsheet env (setupSpreadsheet env st schema) schema).namedRanges k
        = lookupRange (setupSpreadsheet env st schema).namedRanges k ∧
      countKey (setupSpreadsheet env (setupSpreadsheet env st schema) schema).namedRanges k
        = countKey (setupSpreadsheet env st schema).namedRanges k) ∧
    ((setupSpreadsheet env (setupSpreadsheet env st schema) schema).protections
      = (setupSpreadsheet env st schema).protections ++ protectionsOfSheets env schema.sheets) ∧
    (∀ s ∈ schema.sheets, ∃ sh1 sh2,
      getSheetByName (setupSpreadsheet env st schema) s.name = some sh1 ∧
      getSheetByName (setupSpreadsheet env (setupSpreadsheet env st schema) schema) s.name
        = some sh2 ∧
      sh2.rows = (s.fields.map (·.name)) :: sh1.rows) := by
  refine ⟨?_, ?_, ?_, ?_⟩
  · show sheetNames (setupSheets env (setupSpreadsheet env st schema) schema.sheets)
      = sheetNames (setupSpreadsheet env st schema)
    rw [setupSheets_names]
    apply addMissing_id
    intro nm hnm
    show nm ∈ sheetNames (setupSheets env st schema.sheets)
    rw [setupSheets_names]
    exact addMissing_mem_right _ _ nm hnm
  · intro k
    have h2 : (setupSpreadsheet env (setupSpreadsheet env st schema) schema).namedRanges
        = applyWrites (setupSpreadsheet env st schema).namedRanges
          (writesOfSheets schema.sheets) := setupSheets_namedRanges env schema.sheets _
    have h1 : (setupSpreadsheet env st schema).namedRanges
        = applyWrites st.namedRanges (writesOfSheets schema.sheets) :=
      setupSheets_namedRanges env schema.sheets st
    constructor
    · rw [h2, lookup_applyWrites]
      cases hlw : lastWrite (writesOfSheets schema.sheets) k with
      | some v =>
        rw [h1, lookup_applyWrites, hlw]
      | none => rfl
    · rw [h2, countKey_applyWrites]
      by_cases hc : countKey (setupSpreadsheet env st schema).namedRanges k = 0
      · rw [if_pos hc]
        rw [h1, countKey_applyWrites] at hc
        by_cases hc0 : countKey st.namedRanges k = 0
        · rw [if_pos hc0] at hc
          rw [hc]
          rw [h1, countKey_applyWrites, if_pos hc0]
          exact hc.symm
        · rw [if_neg hc0] at hc
          exact absurd hc hc0
      · rw [if_neg hc]
  · exact setupSheets_protections env schema.sheets _
  · intro s hs
    obtain ⟨sh1, hf1, hr1, _, _⟩ := setupSheets_found env schema.sheets st s hs hnd
    obtain ⟨sh2, hf2, hr2, _, _⟩ :=
      setupSheets_found env schema.sheets (setupSpreadsheet env st schema) s hs hnd
    refine ⟨sh1, sh2, hf1, hf2, ?_⟩
    rw [hr2]
    have hrw : rowsAt (setupSpreadsheet env st schema) s.name = sh1.rows := by
      unfold rowsAt
      rw [show getSheetByName (setupSpreadsheet env st schema) s.name = some sh1 from hf1]
    rw [hrw]

theorem claim_c2_witness :
    sheetNames demoRun2 = sheetNames demoRun1 ∧
    demoRun2.protections = demoRun1.protections ++ protectionsOfSheets demoEnv demoSchema.sheets := by
  have h := claim_c2_amended demoEnv demoEmpty demoSchema (by decide)
  exact ⟨h.1, h.2.2.1⟩

/-- C4 counterexample: the malformed schema (empty title, two fields of one
sheet with the same slug "id") is not rejected: the run completes without
any error, the sheet is created, its header is written, and a single
last-write-wins named range is registered.  No SchemaError exists anywhere
in the code. -/
theorem claim_c4_counterexample :
    slugify "ID" = slugify "Id" ∧ badSchema.title = "" ∧
    (getSheetByName (setupSpreadsheet demoEnv demoEmpty badSchema) "S").map (·.rows)
      = some [["ID", "Id"]] ∧
    (setupSpreadsheet demoEnv demoEmpty badSchema).namedRanges
      = [(rangeKey "S" "ID", a1DataRange "S" (indexToAlpha 1))] := by
  decide

/-- C4 amended: no schema validation happens at all — for every schema,
malformed or not, setup proceeds and every sheet named by the schema exists
(was created or modified) afterwards. -/
theorem claim_c4_amended (env : Env) (st : SpreadsheetState) (schema : SpreadsheetSchema) :
    ∀ s ∈ schema.sheets,
    (getSheetByName (setupSpreadsheet env st schema) s.name).isSome = true := by
  intro s hs
  show (getSheetByName (setupSheets env st schema.sheets) s.name).isSome = true
  unfold getSheetByName
  rw [findSheet_isSome_iff]
  show s.name ∈ sheetNames (setupSheets env st schema.sheets)
  rw [setupSheets_names]
  exact addMissing_mem_right _ _ s.name (List.mem_map_of_mem _ hs)

theorem claim_c4_witness :
    dupSheet ∈ badSchema.sheets ∧
    (getSheetByName (setupSpreadsheet demoEnv demoEmpty badSchema) dupSheet.name).isSome
      = true :=
  ⟨by decide, claim_c4_amended demoEnv demoEmpty badSchema dupSheet (by decide)⟩

/-- C5: for a valid schema (distinct sheet names, globally distinct derived
range keys, well-formed initial state, nonempty field lists), one
materializer pass yields: the sheet-name list is the old one plus the
missing schema names (reuse by name, create only if absent), each schema
sheet occurs exactly once and carries the frozen header row with the field
names, and each field owns exactly one named range, named
`slug(sheet)__slug(field)`, targeting its column from row 2 to the open
end. -/
theorem claim_c5_materializer_shape (env : Env) (st : SpreadsheetState)
    (schema : SpreadsheetSchema)
    (hnames : (schema.sheets.map (·.name)).Nodup)
    (hkeys : (allRangeKeys schema.sheets).Nodup)
    (hinitSheets : (sheetNames st).Nodup)
    (hinitRanges : (st.namedRanges.map Prod.fst).Nodup)
    (_hfields : ∀ s ∈ schema.sheets, s.fields ≠ []) :
    sheetNames (setupSpreadsheet env st schema)
      = addMissing (sheetNames st) (schema.sheets.map (·.name)) ∧
    (∀ s ∈ schema.sheets, (sheetNames (setupSpreadsheet env st schema)).count s.name = 1) ∧
    (∀ s ∈ schema.sheets, ∃ sh,
      getSheetByName (setupSpreadsheet env st schema) s.name = some sh ∧
      sh.rows = (s.fields.map (·.name)) :: rowsAt st s.name ∧ sh.frozenRows = 1) ∧
    (∀ s ∈ schema.sheets, ∀ i f, s.fields.get? i = some f →
      lookupRange (setupSpreadsheet env st schema).namedRanges (rangeKey s.name f.name)
        = some (a1DataRange s.name (indexToAlpha i)) ∧
      countKey (setupSpreadsheet env st schema).namedRanges (rangeKey s.name f.name) = 1) := by
  refine ⟨setupSheets_names env schema.sheets st, ?_, ?_, ?_⟩
  · intro s hs
    have hmem : s.name ∈ sheetNames (setupSpreadsheet env st schema) := by
      show s.name ∈ sheetNames (setupSheets env st schema.sheets)
      rw [setupSheets_names]
      exact addMissing_mem_right _ _ s.name (List.mem_map_of_mem _ hs)
    have hnd : (sheetNames (setupSpreadsheet env st schema)).Nodup := by
      show (sheetNames (setupSheets env st schema.sheets)).Nodup
      rw [setupSheets_names]
      exact addMissing_nodup _ _ hinitSheets
    exact List.count_eq_one_of_mem hnd hmem
  · intro s hs
    obtain ⟨sh, hf, hr, hfz, _⟩ := setupSheets_found env schema.sheets st s hs hnames
    exact ⟨sh, hf, hr, hfz⟩
  · intro s hs i f hif
    have hw : (rangeKey s.name f.name, a1DataRange s.name (indexToAlpha i))
        ∈ writesOfSheets schema.sheets := by
      apply mem_writesOfSheets hs
      have := mem_fieldWritesFrom s.name s.fields i 0 f hif
      rw [Nat.zero_add] at this
      exact this
    have hkeysws : ((writesOfSheets schema.sheets).map Prod.fst).Nodup := by
      rw [writesOfSheets_keys]
      exact hkeys
    have hlast := lastWrite_of_mem_nodup hw hkeysws
    have hNR : (setupSpreadsheet env st schema).namedRanges
        = applyWrites st.namedRanges (writesOfSheets schema.sheets) :=
      setupSheets_namedRanges env schema.sheets st
    constructor
    · rw [hNR, lookup_applyWrites, hlast]
    · rw [hNR, countKey_applyWrites]
      by_cases hc : countKey st.namedRanges (rangeKey s.name f.name) = 0
      · rw [if_pos hc, hlast]
        rfl
      · rw [if_neg hc]
        have := countKey_le_one_of_nodup (l := st.namedRanges)
          (k := rangeKey s.name f.name) hinitRanges
        omega

theorem claim_c5_witness :
    lookupRange demoRun1.namedRanges (rangeKey "Manuscript" "ID")
      = some (a1DataRange "Manuscript" (indexToAlpha 0)) ∧
    countKey demoRun1.namedRanges (rangeKey "Manuscript" "ID") = 1 := by
  have h := claim_c5_materializer_shape demoEnv demoEmpty demoSchema (by decide) (by decide)
    (by decide) (by decide) (by decide)
  exact h.2.2.2 demoSheet (by decide) 0 ⟨"ID", none, false⟩ (by decide)

/-- C7: evaluation at the failing input.  The acting identity already holds
edit access, so the fresh protection lists it among its editors; the code
captures that editor list before `addEditor(me)` and then removes the whole
list, so the protection on the protected column ends with NO editors — the
acting identity is not the sole editor, contradicting the claim and the
code's own comment "ensure we can still edit".  The background half of the
claim holds: the protected column gets the highlight color and the
unprotected column gets neither protection nor background. -/
theorem claim_c7_protection_eval :
    demoEnv.me ∈ demoEnv.freshProtectionEditors ∧
    demoRun1.protections = [⟨a1DataRange "Manuscript" (indexToAlpha 1), []⟩] ∧
    (∀ p ∈ demoRun1.protections, p.editors ≠ [demoEnv.me]) ∧
    lookupRange demoRun1.backgrounds (a1DataRange "Manuscript" (indexToAlpha 1))
      = some protectedBackgroundColor ∧
    (∀ p ∈ demoRun1.protections, p.range ≠ a1DataRange "Manuscript" (indexToAlpha 0)) ∧
    lookupRange demoRun1.backgrounds (a1DataRange "Manuscript" (indexToAlpha 0)) = none := by
  decide

theorem rangeKey_inj_field {nm a b : String} (h : rangeKey nm a = rangeKey nm b) :
    slugify a = slugify b := by
  unfold rangeKey at h
  have hd := congrArg String.data h
  simp only [String.data_append, List.append_assoc] at hd
  have h1 := List.append_cancel_left hd
  have h2 := List.append_cancel_left h1
  exact congrArg String.mk h2

/-- C10: named ranges are registered in field order with last-write-wins
overwriting.  If the fields at positions i < j of a sheet share a slug
token (and no other field does), setup completes with no error, exactly
one named range exists under that token, it targets the column of the
later field j, and no named range targets the column of the earlier field
i. -/
theorem claim_c10_lastwrite (env : Env) (st : SpreadsheetState) (sch : SheetSchema)
    (i j : Nat) (fi fj : FieldSchema)
    (hij : i < j)
    (hi : sch.fields.get? i = some fi) (hj : sch.fields.get? j = some fj)
    (hslug : slugify fi.name = slugify fj.name)
    (honly : ∀ k, (hk : k < sch.fields.length) →
      slugify ((sch.fields.get ⟨k, hk⟩).name) = slugify fi.name → k = i ∨ k = j)
    (hinit : st.namedRanges = []) :
    countKey (setupSheet env st sch).namedRanges (rangeKey sch.name fi.name) = 1 ∧
    lookupRange (setupSheet env st sch).namedRanges (rangeKey sch.name fi.name)
      = some (a1DataRange sch.name (indexToAlpha j)) ∧
    (∀ p ∈ (setupSheet env st sch).namedRanges,
      p.2 ≠ a1DataRange sch.name (indexToAlpha i)) := by
  have hKj : rangeKey sch.name fj.name = rangeKey sch.name fi.name := by
    show slugify sch.name ++ "__" ++ slugify fj.name
      = slugify sch.name ++ "__" ++ slugify fi.name
    rw [hslug]
  have hNR : (setupSheet env st sch).namedRanges
      = applyWrites [] (fieldWritesFrom sch.name sch.fields 0) := by
    rw [setupSheet_namedRanges, hinit]
  have hlater : ∀ idx f, j < idx → sch.fields.get? idx = some f →
      rangeKey sch.name f.name ≠ rangeKey sch.name fi.name := by
    intro idx f hlt hf hkey
    obtain ⟨hbound, hget⟩ := List.get?_eq_some.1 hf
    have hs := rangeKey_inj_field hkey
    rcases honly idx hbound (by rw [hget]; exact hs) with rfl | rfl
    · omega
    · omega
  have hlast := lastWrite_fieldWrites_last sch.name sch.fields j 0 fj
    (rangeKey sch.name fi.name) hj hKj hlater
  rw [Nat.zero_add] at hlast
  refine ⟨?_, ?_, ?_⟩
  · rw [hNR, countKey_applyWrites]
    rw [if_pos (show countKey [] (rangeKey sch.name fi.name) = 0 from rfl), hlast]
    rfl
  · rw [hNR, lookup_applyWrites, hlast]
  · intro p hp heq
    rw [hNR] at hp
    rcases mem_applyWrites hp with hlw | ⟨hmem, _⟩
    · obtain ⟨jx, fx, hget, hkey, hval, hlaterx⟩ :=
        lastWrite_fieldWrites_inv sch.name sch.fields 0 p.1 p.2 hlw
      rw [Nat.zero_add] at hval
      have hjx : jx = i := indexToAlpha_inj (a1DataRange_inj (hval ▸ heq))
      subst hjx
      have hfx : fx = fi := by
        rw [hi] at hget
        injection hget with hget
        exact hget.symm
      subst hfx
      exact hlaterx j fj hij hj (hKj.trans hkey)
    · simp at hmem

theorem claim_c10_witness :
    countKey (setupSheet demoEnv demoEmpty dupSheet).namedRanges (rangeKey "S" "ID") = 1 ∧
    lookupRange (setupSheet demoEnv demoEmpty dupSheet).namedRanges (rangeKey "S" "ID")
      = some (a1DataRange "S" (indexToAlpha 1)) := by
  have h := claim_c10_lastwrite demoEnv demoEmpty dupSheet 0 1
    ⟨"ID", none, false⟩ ⟨"Id", none, false⟩
    (by decide) (by decide) (by decide) (by decide) (by decide) (by decide)
  exact ⟨h.1, h.2.1⟩

theorem claim_c6_witness :
    slugify (slugify "Story Origin") = slugify "Story Origin" ∧
    (slugify "Story Origin").data.all (fun c => slugLowerNat c.toNat) = true :=
  claim_c6_idempotent_charset "Story Origin"
